import Mathlib

/-!
Bee-Keeps-Notes: the editor's real-time emit and debounced save, and the
rendering helpers of the dashboard.

A shallow embedding of `src/frontend/editor.js` and, from
`src/frontend/app.js`, of `apiCall`, `renderFolders`, `renderTasks` and
`cycleTaskStatus`.  The module-level variables of the script, the part
of the Quill editor the handlers read and write, and the browser facilities
the handlers call (`setTimeout`, `clearTimeout`, `fetch`, `socket.emit`) are
fields of one record, `Client`.  Every handler of the script is a function
`Client → Client`; the browser's event loop is the step function `step` over
the events it can dispatch.

Time is counted in milliseconds.  A timer fires at its deadline; a `fetch`
answers whenever the environment says so (`Event.writeDone`).

Left out: the classes and styles the handlers set on the page, the embeds, the
share dialog and the save of the title, none of which the editor's emit and
debounced save read; and the fitting of a selection range to the length of the
body, which is Quill's.

The rendering helpers are functions from the data they read to the elements
they append.  A recursion that JavaScript would run until the call stack
overflows is given a fuel and returns `none` when the fuel runs out.  A throw
of `renderTasks` is `none` as well; a throw of `renderFolders` is recorded next
to the items appended before it.

What the platform computes and the repository does not (the number a string
converts to, the elements the HTML parser makes of a markup, the text
`JSON.stringify` makes of a value) is not recomputed: it is part of the data
the functions are applied to.
-/

namespace BeeKeeps

/-! ## JavaScript values used as identifiers -/

/-- The JavaScript values that occur as note and user identifiers: they come
out of `JSON.parse`, so they are primitives.  Numbers are the integers.

How the engine converts a string to a number is not computed here: a string
comes with the outcome of that conversion.  The string with text `s` is
`numeral s n` when the engine converts it to the integer `n` (as it does
`'1'`, `'1.0'`, `'+1'`, `'0x1'` and `' 1 '` to 1, and the empty string to 0),
and `str s` when the conversion gives no integer (NaN, an infinity, a
fraction), as for `'Anonymous'` or `'-'`. -/
inductive JsVal
  | null
  | undefined
  | num (n : Int)
  | str (s : String)
  | numeral (s : String) (n : Int)
  deriving DecidableEq, Repr

namespace JsVal

/-- ToBoolean, as used by `if (x)` and `x && y`. -/
def truthy : JsVal → Bool
  | null => false
  | undefined => false
  | num n => decide (n ≠ 0)
  | str s => decide (s ≠ "")
  | numeral s _ => decide (s ≠ "")

/-- The operator `===` on primitives.  A primitive has one form here (a string
is `numeral` or `str` by what its conversion gives), so two values are the same
primitive exactly when they are the same term. -/
def strictEq (a b : JsVal) : Bool := decide (a = b)

/-- The operator `==` on primitives: `null` and `undefined` equal each other
and nothing else, two strings are compared by their text, and a string is
compared with a number through the number the engine converts it to: the
`n` of `numeral s n`, and no integer at all for `str s`. -/
def looseEq : JsVal → JsVal → Bool
  | null, null => true
  | null, undefined => true
  | undefined, null => true
  | undefined, undefined => true
  | num a, num b => decide (a = b)
  | str a, str b => decide (a = b)
  | str a, numeral b _ => decide (a = b)
  | numeral a _, str b => decide (a = b)
  | numeral a _, numeral b _ => decide (a = b)
  | num a, numeral _ n => decide (a = n)
  | numeral _ n, num b => decide (n = b)
  | num _, str _ => false
  | str _, num _ => false
  | _, _ => false

end JsVal

/-! ## Data -/

/-- The `source` argument of Quill's `text-change` event. -/
inductive Source
  | user
  | api
  | silent
  deriving DecidableEq, Repr

/-- A Quill selection range. -/
structure Selection where
  index : Nat
  length : Nat
  deriving DecidableEq, Repr

/-- A timer created by `setTimeout` in the `text-change` handler.  Its callback
closes over `content`; everything else the callback reads at fire time. -/
structure Timer where
  id : Nat
  deadline : Nat
  content : String
  deriving DecidableEq, Repr

/-- A request PUT `/notes/${noteId}` with body `{content}` that has been
issued and not answered yet. -/
structure Write where
  noteId : JsVal
  content : String
  started : Nat
  deriving DecidableEq, Repr

/-- What the client sends with `socket.emit`. -/
inductive Emit
  | join_document (document_id user_id : JsVal)
  | leave_document (document_id : JsVal)
  | edit_document (document_id : JsVal) (content : String) (user_id : JsVal)
  deriving DecidableEq, Repr

/-- The payload of a `document_updated` event. -/
structure Updated where
  document_id : JsVal
  content : String
  user_id : JsVal
  deriving DecidableEq, Repr

/-- The fields of a note that `openEditorForNote` reads into the editor. -/
structure Note where
  title : String
  content : Option String
  deriving DecidableEq, Repr

/-- How a `fetch` ends: it rejects, or it answers with a status and a body
that `response.json()` parses (`some`) or rejects (`none`). -/
inductive FetchOutcome (α : Type)
  | networkFailure
  | response (status : Nat) (body : Option α)
  deriving DecidableEq, Repr

/-- The function `apiCall` of app.js from the answer on: the value the promise resolves to
(`none` is `null`) and whether `handleLogout` was called. -/
def apiCall {α : Type} : FetchOutcome α → Option α × Bool
  | .networkFailure => (none, false)
  | .response status body => if status = 401 then (none, true) else (body, false)

/-- The debounce delay passed to `setTimeout`, in milliseconds. -/
def D : Nat := 1000

/-- The script's variables and the part of the browser they act on. -/
structure Client where
  /-- `socket` is not null. -/
  socket : Bool
  currentNoteId : JsVal
  /-- The handle kept in `typingTimeout`. -/
  typingTimeout : Option Nat
  /-- The `id` of `currentUser`, when there is a current user. -/
  currentUser : Option JsVal
  /-- The body of the editor, `quill.root.innerHTML`. -/
  content : String
  /-- The selection of the editor, what `quill.getSelection()` returns; `none`
  for null. -/
  selection : Option Selection
  /-- The value of `editorTitle`. -/
  title : String
  /-- The text of `syncStatus`. -/
  syncStatus : String
  now : Nat
  nextTimer : Nat
  /-- The timers that are set and have not fired, oldest first. -/
  timers : List Timer
  /-- The note ids of the calls of `openEditorForNote` waiting for their GET. -/
  loads : List JsVal
  /-- The PUTs of the debounced save that wait for their answer. -/
  inflight : List Write
  /-- Everything sent with `socket.emit`, oldest first. -/
  emitted : List Emit
  /-- Every PUT the debounced save has issued, oldest first. -/
  puts : List (JsVal × String)
  logoutCalls : Nat
  alerts : Nat
  /-- How many times `io(...)` has been called. -/
  socketsCreated : Nat
  /-- How many handlers of `connect`, `user_joined` and `document_updated` are
  registered on the socket. -/
  connectHandlers : Nat
  joinedHandlers : Nat
  updatedHandlers : Nat
  deriving DecidableEq, Repr

/-- The page right after the scripts have loaded, with the given text in the
sync indicator. -/
def fresh (status : String) : Client :=
  { socket := false, currentNoteId := .null, typingTimeout := none,
    currentUser := none, content := "", selection := none, title := "",
    syncStatus := status, now := 0, nextTimer := 0, timers := [], loads := [],
    inflight := [], emitted := [], puts := [], logoutCalls := 0, alerts := 0,
    socketsCreated := 0, connectHandlers := 0, joinedHandlers := 0, updatedHandlers := 0 }

/-! ## Handlers -/

/-- The expression `currentUser ? currentUser.id : 'Anonymous'`. -/
def localUserId (s : Client) : JsVal :=
  match s.currentUser with
  | some id => id
  | none => .str "Anonymous"

/-- The assignment `quill.root.innerHTML = html`: the body is replaced, and the
selection, which stood in the nodes that are replaced, is gone. -/
@[simp]
def setInnerHTML (s : Client) (html : String) : Client :=
  { s with content := html, selection := none }

/-- The call `quill.setSelection(index, length)`: the selection is the range
asked for. -/
@[simp]
def setSelection (s : Client) (index length : Nat) : Client :=
  { s with selection := some { index := index, length := length } }

/-- The call `clearTimeout(h)`: the timer with that handle, if it is still set, is
removed; a null or stale handle does nothing. -/
def clearTimeout (s : Client) (h : Option Nat) : Client :=
  match h with
  | none => s
  | some i => { s with timers := s.timers.filter (fun t => decide (t.id ≠ i)) }

/-- The statement `typingTimeout = setTimeout(callback, 1000)` with `content` captured. -/
def setTypingTimeout (s : Client) (content : String) : Client :=
  { s with
    timers := s.timers ++ [{ id := s.nextTimer, deadline := s.now + D, content := content }],
    typingTimeout := some s.nextTimer,
    nextTimer := s.nextTimer + 1 }

/-- The handler of `text-change`.  The editor body already holds the change. -/
def onTextChange (s : Client) (source : Source) : Client :=
  if source = .user then
    let content := s.content
    let s1 := { s with syncStatus := "Saving..." }
    let s2 :=
      if s1.socket && s1.currentNoteId.truthy then
        { s1 with emitted := s1.emitted ++
            [.edit_document s1.currentNoteId content (localUserId s1)] }
      else s1
    let s3 := clearTimeout s2 s2.typingTimeout
    setTypingTimeout s3 content
  else s

/-- The timer callback up to its `await`: `apiCall` issues the PUT for the
note id that `currentNoteId` holds now, with the captured content. -/
def fireTimer (s : Client) (t : Timer) : Client :=
  { s with
    inflight := s.inflight ++ [{ noteId := s.currentNoteId, content := t.content, started := t.deadline }],
    puts := s.puts ++ [(s.currentNoteId, t.content)] }

/-- Time passes by `dt`: the timers whose deadline is reached fire, oldest
first (all delays are equal, so that is deadline order). -/
def advance (s : Client) (dt : Nat) : Client :=
  let due := s.timers.filter (fun t => decide (t.deadline ≤ s.now + dt))
  let s1 := due.foldl fireTimer s
  { s1 with
    timers := s.timers.filter (fun t => decide (¬ t.deadline ≤ s.now + dt)),
    now := s.now + dt }

/-- The rest of the timer callback, after `await apiCall(...)` of the `i`-th
waiting PUT: the result is not looked at. -/
def onWriteDone (s : Client) (i : Nat) (o : FetchOutcome Unit) : Client :=
  if i < s.inflight.length then
    let r := apiCall o
    let s1 := { s with inflight := s.inflight.eraseIdx i }
    let s2 := if r.2 then { s1 with logoutCalls := s1.logoutCalls + 1 } else s1
    { s2 with syncStatus := "Saved" }
  else s

/-- The call `openEditorForNote(id)` up to its `await`. -/
def openEditorForNote (s : Client) (id : JsVal) : Client :=
  { s with currentNoteId := id, loads := s.loads ++ [id] }

/-- The call `openEditorForNote(id)` after its `await`, for the `i`-th waiting call. -/
def openEditorForNoteLoaded (s : Client) (i : Nat) (o : FetchOutcome Note) : Client :=
  match s.loads.get? i with
  | none => s
  | some id =>
    let r := apiCall o
    let s1 := { s with loads := s.loads.eraseIdx i }
    let s2 := if r.2 then { s1 with logoutCalls := s1.logoutCalls + 1 } else s1
    match r.1 with
    | none => { s2 with alerts := s2.alerts + 1 }
    | some note =>
      let s3 := setInnerHTML { s2 with title := note.title } (note.content.getD "")
      let s4 :=
        if s3.socket then s3
        else
          { s3 with
            socket := true
            socketsCreated := s3.socketsCreated + 1
            connectHandlers := s3.connectHandlers + 1
            joinedHandlers := s3.joinedHandlers + 1
            updatedHandlers := s3.updatedHandlers + 1 }
      { s4 with emitted := s4.emitted ++ [.join_document id (localUserId s4)] }

/-- The handler of `document_updated`: it takes the selection, replaces the
body, and when there was a selection asks Quill for it again. -/
def onDocumentUpdated (s : Client) (data : Updated) : Client :=
  if data.document_id.looseEq s.currentNoteId
      && !(data.user_id.strictEq (localUserId s)) then
    let selection := s.selection
    let s1 := setInnerHTML s data.content
    match selection with
    | some sel => setSelection s1 sel.index sel.length
    | none => s1
  else s

/-- The socket delivers `document_updated`: every handler registered for it
runs, one after the other. -/
def dispatchDocumentUpdated (s : Client) (data : Updated) : Client :=
  Nat.iterate (fun acc => onDocumentUpdated acc data) s.updatedHandlers s

/-- The click handler of `close-editor`. -/
def closeEditor (s : Client) : Client :=
  let s1 :=
    if s.socket && s.currentNoteId.truthy then
      { s with emitted := s.emitted ++ [.leave_document s.currentNoteId] }
    else s
  { s1 with currentNoteId := .null }

/-! ## The event loop -/

/-- What the browser can dispatch to the script. -/
inductive Event
  /-- Time passes. -/
  | wait (dt : Nat)
  /-- Quill changed the editor body to `content` and reports it. -/
  | textChange (source : Source) (content : String)
  /-- A call `openEditorForNote(id)`. -/
  | openNote (id : JsVal)
  /-- The GET of the `i`-th waiting `openEditorForNote` ends. -/
  | noteLoaded (i : Nat) (o : FetchOutcome Note)
  | closeEditor
  /-- The socket delivers `document_updated` (to the one handler registered
  when the socket was created, see `dispatch_eq_step`). -/
  | documentUpdated (data : Updated)
  /-- The PUT of the `i`-th waiting save ends. -/
  | writeDone (i : Nat) (o : FetchOutcome Unit)
  /-- An assignment to `currentUser` (log in, log out). -/
  | setUser (u : Option JsVal)
  /-- The user moves the selection. -/
  | select (sel : Option Selection)
  deriving DecidableEq, Repr

/-- One turn of the event loop. -/
def step (s : Client) : Event → Client
  | .wait dt => advance s dt
  | .textChange source content => onTextChange { s with content := content } source
  | .openNote id => openEditorForNote s id
  | .noteLoaded i o => openEditorForNoteLoaded s i o
  | .closeEditor => closeEditor s
  | .documentUpdated data => if s.socket then onDocumentUpdated s data else s
  | .writeDone i o => onWriteDone s i o
  | .setUser u => { s with currentUser := u }
  | .select sel => { s with selection := sel }

/-- The events of a list, in order. -/
def run (s : Client) (evs : List Event) : Client := evs.foldl step s

/-- The states the page can be in. -/
def Reachable (s : Client) : Prop := ∃ status evs, run (fresh status) evs = s

/-- A user edit that makes the editor body `c`. -/
abbrev edit (c : String) : Event := .textChange .user c

/-! ## Scenarios -/

/-- A tab of a client that is not logged in, after it opened note 1, whose
stored body is `old`. -/
def openedTab : Client :=
  run (fresh "") [.openNote (.num 1), .noteLoaded 0 (.response 200 (some ⟨"Notes", some "old"⟩))]

/-- A burst of user edits: the first makes the body `c0`, each later one comes
`gap` milliseconds after the one before it. -/
def burst (c0 : String) (rest : List (Nat × String)) : List Event :=
  edit c0 :: rest.flatMap (fun p => [.wait p.1, edit p.2])

/-- The body after the last edit of a burst. -/
def lastContent : String → List (Nat × String) → String
  | c0, [] => c0
  | _, p :: ps => lastContent p.2 ps

/-! ## Invariants of the save machinery -/

/-- Every timer that is set is the one `typingTimeout` names. -/
def TimerInv (s : Client) : Prop := ∀ t ∈ s.timers, s.typingTimeout = some t.id

/-- One save is scheduled: it was set at the present instant, with content `c`. -/
def Armed (s : Client) (c : String) : Prop :=
  ∃ id, s.timers = [{ id := id, deadline := s.now + D, content := c }] ∧
    s.typingTimeout = some id

/-- The second state has the timers, waiting writes, issued writes and clock
of the first. -/
def SameSaveState (s s' : Client) : Prop :=
  s'.timers = s.timers ∧ s'.typingTimeout = s.typingTimeout ∧ s'.inflight = s.inflight ∧
  s'.puts = s.puts ∧ s'.now = s.now ∧ s'.nextTimer = s.nextTimer

/-- The content of the latest user edit, carried along a list of events. -/
def noteEdit (last : Option String) : Event → Option String
  | .textChange .user c => some c
  | _ => last

/-- The content of the latest user edit among the events, if there is one. -/
def lastUserEdit (evs : List Event) : Option String := evs.foldl noteEdit none

/-- At most one timer is set; it is the one `typingTimeout` names, it holds
the content of the latest user edit, and it is due within `D`. -/
def PendingInv (s : Client) (last : Option String) : Prop :=
  s.timers.length ≤ 1 ∧
  ∀ t ∈ s.timers, s.typingTimeout = some t.id ∧ last = some t.content ∧
    s.now < t.deadline ∧ t.deadline ≤ s.now + D

/-- Every waiting write started less than `L` milliseconds ago. -/
def latencyBounded (L : Nat) (s : Client) : Bool :=
  s.inflight.all (fun r => decide (s.now < r.started + L))

/-- Along the events, from `s` on, every write is answered less than `L`
milliseconds after it started. -/
def latencyOk (L : Nat) : Client → List Event → Bool
  | _, [] => true
  | s, e :: es => latencyBounded L (step s e) && latencyOk L (step s e) es

/-- At most one write waits; it started in the past, and at least `D` before
the deadline of the scheduled save. -/
def WriteInv (s : Client) : Prop :=
  s.inflight.length ≤ 1 ∧ (∀ r ∈ s.inflight, r.started ≤ s.now) ∧
  ∀ t ∈ s.timers, ∀ r ∈ s.inflight, r.started + D ≤ t.deadline

/-! ## The protocol seen on the socket -/

/-- Whether, after the emissions of `log`, document `d` is joined: a
`join_document` for it has been emitted and no `leave_document` for it since. -/
def joinedAfter (log : List Emit) (d : JsVal) : Bool :=
  log.foldl (fun j e =>
    match e with
    | .join_document d' _ => if d' = d then true else j
    | .leave_document d' => if d' = d then false else j
    | .edit_document _ _ _ => j) false

/-- Whether every `edit_document` of `log` is emitted while its document is
joined, given the emissions `seen` that came before `log`. -/
def editsWhileJoined (seen : List Emit) : List Emit → Bool
  | [] => true
  | e :: es =>
    (match e with
      | .edit_document d _ _ => joinedAfter seen d
      | _ => true) && editsWhileJoined (seen ++ [e]) es

/-- Events that are neither the passing of time nor a user edit. -/
def Event.quiet : Event → Bool
  | .wait _ => false
  | .textChange .user _ => false
  | _ => true

/-- The socket and its handlers exist together, once or not at all. -/
def SocketInv (s : Client) : Prop :=
  s.socketsCreated = (if s.socket then 1 else 0) ∧
  s.connectHandlers = (if s.socket then 1 else 0) ∧
  s.joinedHandlers = (if s.socket then 1 else 0) ∧
  s.updatedHandlers = (if s.socket then 1 else 0)

/-! ## `apiCall` as a promise -/

/-- The prefix that `apiCall` puts before every endpoint. -/
def API_BASE : String := "/api"

/-- How a promise ends. -/
inductive Settled (α : Type)
  | resolved (value : α)
  | rejected
  deriving DecidableEq, Repr

/-- How a `try` block ends. -/
inductive Completion (α : Type)
  | returned (value : α)
  | thrown
  deriving DecidableEq, Repr

/-- The request that `apiCall` hands to `fetch`. -/
structure FetchRequest where
  url : String
  method : String
  contentType : String
  credentials : String
  body : Option String
  deriving DecidableEq, Repr

/-- What `JSON.stringify` makes of a value: a text, `undefined` (for a
function, a symbol, `undefined`), or a TypeError that it throws (for a value
with a cycle, for a BigInt). -/
inductive Stringified
  | text (json : String)
  | undefined
  | throws
  deriving DecidableEq, Repr

/-- A value passed as `body`, as far as `apiCall` looks at it: whether it is
truthy, and what `JSON.stringify` makes of it.  The default `null` is falsy. -/
structure BodyArg where
  truthy : Bool
  stringified : Stringified
  deriving DecidableEq, Repr

/-- The lines of `apiCall(endpoint, method, body)` before its `try`: the
request they build, `none` when `JSON.stringify(body)` throws.  A falsy body
is not sent. -/
def apiCallRequest (endpoint method : String) (body : BodyArg) : Option FetchRequest :=
  if body.truthy then
    match body.stringified with
    | .text json =>
      some { url := API_BASE ++ endpoint, method := method, contentType := "application/json",
             credentials := "include", body := some json }
    | .undefined =>
      some { url := API_BASE ++ endpoint, method := method, contentType := "application/json",
             credentials := "include", body := none }
    | .throws => none
  else
    some { url := API_BASE ++ endpoint, method := method, contentType := "application/json",
           credentials := "include", body := none }

/-- The `try` block of `apiCall`: what it returns or that it throws, and
whether it called `handleLogout`.  It throws when `fetch` rejects, after a
status 401, and when `response.json()` rejects. -/
def apiCallTry {α : Type} : FetchOutcome α → Completion (Option α) × Bool
  | .networkFailure => (.thrown, false)
  | .response status body =>
    if status = 401 then (.thrown, true)
    else
      match body with
      | none => (.thrown, false)
      | some v => (.returned (some v), false)

/-- The promise `apiCall(endpoint, method, body)` returns, for a given outcome
of the request, with the request sent, if one is, and whether `handleLogout`
was called.  A throw before the `try` rejects the promise and nothing is
sent; a throw inside the `try` is caught: the `catch` block logs and returns
`null`. -/
def apiCallPromise {α : Type} (endpoint method : String) (body : BodyArg)
    (o : FetchOutcome α) : Option FetchRequest × Settled (Option α) × Bool :=
  match apiCallRequest endpoint method body with
  | none => (none, .rejected, false)
  | some request =>
    match apiCallTry o with
    | (.returned v, logout) => (some request, .resolved v, logout)
    | (.thrown, logout) => (some request, .resolved none, logout)

/-! ## Plain objects used as maps -/

/-- The property names every plain object inherits from `Object.prototype`.
Each of them holds a function, or for `__proto__` the prototype itself: a
truthy value that is neither a string nor an array. -/
def objectPrototypeKeys : List String :=
  ["constructor", "__defineGetter__", "__defineSetter__", "hasOwnProperty",
   "__lookupGetter__", "__lookupSetter__", "isPrototypeOf", "propertyIsEnumerable",
   "toString", "valueOf", "__proto__", "toLocaleString"]

/-- The value of `obj[key]` for a plain object with own properties of type `α`. -/
inductive PropValue (α : Type)
  | own (value : α)
  | inherited (key : String)
  | undefined
  deriving DecidableEq, Repr

/-- The expression `obj[key]` for a plain object literal whose own properties
are `props`, in insertion order. -/
def getProp {α : Type} (props : List (String × α)) (key : String) : PropValue α :=
  match props.lookup key with
  | some v => .own v
  | none => if key ∈ objectPrototypeKeys then .inherited key else .undefined

/-! ## The status cycle of a task -/

/-- The object `cycle` of `cycleTaskStatus`. -/
def cycle : List (String × String) :=
  [("pending", "working"), ("working", "completed"), ("completed", "pending")]

/-- The value of `newStatus`: a status, or a value inherited from
`Object.prototype`, which `JSON.stringify` does not send as a status. -/
inductive NewStatus
  | status (s : String)
  | inheritedValue (key : String)
  deriving DecidableEq, Repr

/-- The expression `cycle[currentStatus] || 'pending'` of `cycleTaskStatus`. -/
def cycleTaskStatus (currentStatus : String) : NewStatus :=
  match getProp cycle currentStatus with
  | .own v => if v = "" then .status "pending" else .status v
  | .inherited key => .inheritedValue key
  | .undefined => .status "pending"

/-! ## The task list -/

/-- The fields of a task that `renderTasks` groups and labels by. -/
structure Task where
  id : JsVal
  title : String
  category : Option String
  status : Option String
  deriving DecidableEq, Repr

/-- What `renderTasks` puts into the dashboard container. -/
inductive TaskElem
  | placeholder
  | header (category : String)
  | item (task : Task) (status : String)
  deriving DecidableEq, Repr

/-- The expression `task.category || 'General'`. -/
def taskCategory (task : Task) : String :=
  match task.category with
  | some c => if c = "" then "General" else c
  | none => "General"

/-- The expression `task.status || 'pending'`. -/
def taskStatus (task : Task) : String :=
  match task.status with
  | some s => if s = "" then "pending" else s
  | none => "pending"

/-- One turn of the grouping loop on the object `tasksByCategory`, `none` when
it throws.  An own property is an array, which is truthy, and the task is
pushed onto it.  An inherited property is truthy as well, so no array is
stored, and `push` is not a function of it: a TypeError.  Otherwise a new
array with the task is stored under the category. -/
def pushTask (tasksByCategory : List (String × List Task)) (task : Task) :
    Option (List (String × List Task)) :=
  let cat := taskCategory task
  match getProp tasksByCategory cat with
  | .own _ =>
    some (tasksByCategory.map (fun g => if g.1 = cat then (g.1, g.2 ++ [task]) else g))
  | .inherited _ => none
  | .undefined => some (tasksByCategory ++ [(cat, [task])])

/-- The grouping loop `currentTasks.forEach(...)`. -/
def groupTasks : List Task → List (String × List Task) → Option (List (String × List Task))
  | [], tasksByCategory => some tasksByCategory
  | task :: rest, tasksByCategory =>
    match pushTask tasksByCategory task with
    | none => none
    | some next => groupTasks rest next

/-- The number a property key stands for when it is an array index: a decimal
numeral without leading zero, below 2^32 - 1. -/
def arrayIndex? (key : String) : Option Nat :=
  let cs := key.data
  if cs ≠ [] ∧ cs.all Char.isDigit = true ∧ (cs.head? ≠ some '0' ∨ cs.length = 1) then
    let n := cs.foldl (fun n c => 10 * n + (c.toNat - 48)) 0
    if n < 4294967295 then some n else none
  else none

/-- The order of `Object.entries`: the array-index keys in ascending order,
then the other keys in insertion order. -/
def objectEntries {α : Type} (props : List (String × α)) : List (String × α) :=
  (props.filter (fun p => (arrayIndex? p.1).isSome)).insertionSort
      (fun a b => (arrayIndex? a.1).getD 0 ≤ (arrayIndex? b.1).getD 0)
    ++ props.filter (fun p => !(arrayIndex? p.1).isSome)

/-- The children of the dashboard container after `renderTasks()`, `none`
when it throws. -/
def renderTasks (currentTasks : List Task) : Option (List TaskElem) :=
  if currentTasks.length = 0 then some [.placeholder]
  else
    match groupTasks currentTasks [] with
    | none => none
    | some tasksByCategory =>
      some ((objectEntries tasksByCategory).flatMap (fun g =>
        .header g.1 :: g.2.map (fun task => .item task (taskStatus task))))

/-! ## The folder tree -/

/-- The fields of a folder that `renderFolders` reads, and what the browser
makes of the markup of its list item.  `renderFolderNode` puts the name and
the id unescaped into `li.innerHTML` and then looks up the button of class
`add-subfolder-btn` in the parsed item.  When the name holds no `<` and the id
no double quote the button is there; otherwise the HTML parser decides (a name
such as `<!--` swallows the button), and `buttonParsed` is its answer. -/
structure Folder where
  id : JsVal
  parent_id : JsVal
  name : String
  buttonParsed : Bool
  deriving DecidableEq, Repr

/-- Whether the text that `${id}` puts into the markup is free of double
quotes. -/
def quoteFree : JsVal → Bool
  | .str s => s.data.all (fun c => c != Char.ofNat 34)
  | .numeral s _ => s.data.all (fun c => c != Char.ofNat 34)
  | _ => true

/-- Whether `li.querySelector('.add-subfolder-btn')` finds the button in the
item of the folder. -/
def hasAddButton (f : Folder) : Bool :=
  (f.name.data.all (fun c => c != Char.ofNat 60) && quoteFree f.id) || f.buttonParsed

/-- A list item appended to the sidebar: its folder and its left padding in
pixels. -/
structure FolderItem where
  folder : Folder
  paddingLeft : Nat
  deriving DecidableEq, Repr

/-- How a rendering ends: the items it appended to the list, and whether it
ended by a TypeError that was thrown rather than by returning. -/
structure Rendered where
  items : List FolderItem
  threw : Bool
  deriving DecidableEq, Repr

/-- The loop `folders.forEach(render)`, where each call appends its items: a
call that throws ends the loop, the later folders are not visited; `none` when
a call does not return. -/
def forEachRender (render : Folder → Option Rendered) : List Folder → Option Rendered
  | [] => some { items := [], threw := false }
  | f :: rest =>
    match render f with
    | none => none
    | some r =>
      if r.threw then some r
      else
        match forEachRender render rest with
        | none => none
        | some more => some { items := r.items ++ more.items, threw := more.threw }

/-- The helper `renderFolderNode(folder, depth)`: what it appends to the list,
with `fuel` bounding the depth of the call stack; `none` when the stack runs
out.  When the parsed item has no button, `addBtn` is null and
`addBtn.addEventListener` throws before the item is appended. -/
def renderFolderNode : Nat → List Folder → Folder → Nat → Option Rendered
  | 0, _, _, _ => none
  | fuel + 1, currentFolders, folder, depth =>
    if hasAddButton folder then
      let li : FolderItem := { folder := folder, paddingLeft := 12 + depth * 20 }
      let children := currentFolders.filter (fun f => f.parent_id.strictEq folder.id)
      match forEachRender (fun c => renderFolderNode fuel currentFolders c (depth + 1))
          children with
      | none => none
      | some r => some { items := li :: r.items, threw := r.threw }
    else some { items := [], threw := true }

/-- The list items of the sidebar after `renderFolders()`, and whether it
threw. -/
def renderFolders (fuel : Nat) (currentFolders : List Folder) : Option Rendered :=
  let rootFolders := currentFolders.filter (fun f => !f.parent_id.truthy)
  forEachRender (fun f => renderFolderNode fuel currentFolders f 0) rootFolders

/-- The folder `c` is in the list and names `p` as its parent. -/
def IsChild (folders : List Folder) (p c : Folder) : Prop :=
  c ∈ folders ∧ c.parent_id = p.id

/-- The folder `g` is `f` or lies below it. -/
def Below (folders : List Folder) (f g : Folder) : Prop :=
  Relation.ReflTransGen (IsChild folders) f g

/-- The function `dep` gives every folder of the list its distance from its
root: 0 for a folder without parent, one more than its parent otherwise.  Such
a function exists exactly when every parent that is named is in the list and
no folder lies below itself. -/
def IsDepth (folders : List Folder) (dep : Folder → Nat) : Prop :=
  ∀ f ∈ folders,
    (f.parent_id.truthy = false → dep f = 0) ∧
    (f.parent_id.truthy = true → ∃ p ∈ folders, p.id = f.parent_id ∧ dep f = dep p + 1)

/-- The list item of a folder at its depth. -/
def itemAt (dep : Folder → Nat) (f : Folder) : FolderItem :=
  { folder := f, paddingLeft := 12 + 20 * dep f }

/-- The pre-order listing of the part of the tree at and below `f`, down to
`k` levels. -/
def subtree (folders : List Folder) (dep : Folder → Nat) : Nat → Folder → List FolderItem
  | 0, f => [itemAt dep f]
  | k + 1, f =>
    itemAt dep f ::
      (folders.filter (fun c => decide (c.parent_id = f.id))).flatMap (subtree folders dep k)

/-- The call stack of `renderFolderNode`, innermost call first: every folder
names the next one as its parent, none occurs twice, the last is a root. -/
def IsPath (folders : List Folder) : List Folder → Prop
  | [] => False
  | [r] => r ∈ folders ∧ r.parent_id.truthy = false
  | c :: f :: rest =>
    c ∈ folders ∧ c.parent_id = f.id ∧ c ∉ f :: rest ∧ IsPath folders (f :: rest)

/-- No folder that counts as a root, its parent id being falsy, is at the same
time the child of a folder of the list: whenever a parent id is the id of a
folder, it is truthy. -/
def RootsHaveNoParent (folders : List Folder) : Prop :=
  ∀ f ∈ folders, ∀ c ∈ folders, c.parent_id = f.id → c.parent_id.truthy = true

/-- The folder list is a forest with depth function `dep`: the ids are
unique, no root is the child of a folder, and `dep` is the distance of every
folder from its root. -/
def IsForest (folders : List Folder) (dep : Folder → Nat) : Prop :=
  (folders.map (fun f => f.id)).Nodup ∧ RootsHaveNoParent folders ∧ IsDepth folders dep

/-- The item of every folder of the list is parsed with its button. -/
def AllHaveButton (folders : List Folder) : Prop :=
  ∀ f ∈ folders, hasAddButton f = true

/-- A bound on the depth of the folders of the list. -/
def depthBound (folders : List Folder) (dep : Folder → Nat) : Nat :=
  (folders.map dep).sum

/-- Two roots, the first with a child and a grandchild that come later in
the list. -/
def sampleFolders : List Folder :=
  [⟨.num 1, .null, "a", true⟩, ⟨.num 2, .null, "b", true⟩, ⟨.num 3, .num 1, "c", true⟩, ⟨.num 4, .num 3, "d", true⟩]

/-- The depths of the folders of `sampleFolders`. -/
def sampleDepth (f : Folder) : Nat :=
  if f.id = .num 3 then 1 else if f.id = .num 4 then 2 else 0

/-- The groups of `tasksByCategory` after the tasks `done`: one group per
category met, holding the tasks of that category in their order. -/
def GroupInv (groups : List (String × List Task)) (done : List Task) : Prop :=
  (groups.map Prod.fst).Nodup ∧
  (∀ g ∈ groups, g.2 = done.filter (fun t => decide (taskCategory t = g.1))) ∧
  (∀ t ∈ done, taskCategory t ∈ groups.map Prod.fst) ∧
  (∀ g ∈ groups, ∃ t ∈ done, taskCategory t = g.1)

/-! ## Basic facts -/

/-- A truthy identifier is loosely equal to itself. -/
theorem JsVal.looseEq_self_of_truthy (x : JsVal) (h : x.truthy = true) :
    x.looseEq x = true := by
  cases x <;> simp_all [JsVal.looseEq, JsVal.truthy]

/-- An identifier is strictly equal to itself. -/
theorem JsVal.strictEq_self (x : JsVal) : x.strictEq x = true := by
  simp [JsVal.strictEq]

/-- Different identifiers are not strictly equal. -/
theorem JsVal.strictEq_eq_false {x y : JsVal} (h : x ≠ y) : x.strictEq y = false := by
  simp [JsVal.strictEq, h]

/-- What a user edit does, field by field. -/
theorem step_edit (s : Client) (c : String) :
    step s (edit c) =
      { s with
        content := c
        syncStatus := "Saving..."
        emitted :=
          if s.socket && s.currentNoteId.truthy then
            s.emitted ++ [.edit_document s.currentNoteId c (localUserId s)]
          else s.emitted
        timers := (clearTimeout s s.typingTimeout).timers ++
          [{ id := s.nextTimer, deadline := s.now + D, content := c }]
        typingTimeout := some s.nextTimer
        nextTimer := s.nextTimer + 1 } := by
  cases h : (s.socket && s.currentNoteId.truthy) <;>
    cases ht : s.typingTimeout <;>
    simp [step, onTextChange, clearTimeout, setTypingTimeout, localUserId, h, ht]

/-! ## C1, C2: who applies an edit that comes back over the socket -/

/-- C1: with a document open, the `edit_document` payload that a user edit
emits, delivered back to the same client as `document_updated`, changes
nothing in that client; the editor body stays the edited content. -/
theorem anti_echo_on_sender (s : Client) (c : String)
    (hsock : s.socket = true) (hdoc : s.currentNoteId.truthy = true) :
    (step s (edit c)).emitted
        = s.emitted ++ [.edit_document s.currentNoteId c (localUserId s)] ∧
    (step s (edit c)).content = c ∧
    step (step s (edit c)) (.documentUpdated ⟨s.currentNoteId, c, localUserId s⟩)
        = step s (edit c) := by
  have hu : localUserId (step s (edit c)) = localUserId s := by
    simp [step_edit, localUserId]
  have hs : (step s (edit c)).socket = true := by simp [step_edit, hsock]
  refine ⟨by simp [step_edit, hsock, hdoc], by simp [step_edit], ?_⟩
  generalize step s (edit c) = s' at hu hs
  simp [step, hs, onDocumentUpdated, hu, JsVal.strictEq_self]

/-- An instance of C1: the tab that opened note 1 edits it to `Hello`. -/
theorem anti_echo_on_sender_witness :
    openedTab.socket = true ∧ openedTab.currentNoteId.truthy = true ∧
    step (step openedTab (edit "Hello"))
        (.documentUpdated ⟨.num 1, "Hello", .str "Anonymous"⟩)
      = step openedTab (edit "Hello") :=
  ⟨by decide, by decide,
    (anti_echo_on_sender openedTab "Hello" (by decide) (by decide)).2.2⟩

/-- C2, as stated, fails: two tabs that are not logged in have note 1 open;
the first emits an edit with content `Hello`; the second, receiving it,
keeps its body `old`. -/
theorem delivery_between_anonymous_tabs_fails :
    (step openedTab (edit "Hello")).emitted.getLast?
        = some (.edit_document (.num 1) "Hello" (.str "Anonymous")) ∧
    openedTab.socket = true ∧ openedTab.currentNoteId = .num 1 ∧
    (step openedTab (.documentUpdated ⟨.num 1, "Hello", .str "Anonymous"⟩)).content = "old" := by
  decide

/-- C2, amended: a client `b` that has the document of `a` open applies the
edit emitted by `a` exactly when the user identifier of `b` differs from that
of `a`; when the two are equal (two tabs of one user, two clients that are not
logged in) `b` is left as it was. -/
theorem delivery_to_other_users (a b : Client) (c : String)
    (hsock : b.socket = true) (hdoc : a.currentNoteId.truthy = true)
    (hsame : b.currentNoteId = a.currentNoteId) :
    (localUserId b ≠ localUserId a →
      (step b (.documentUpdated ⟨a.currentNoteId, c, localUserId a⟩)).content = c) ∧
    (localUserId b = localUserId a →
      step b (.documentUpdated ⟨a.currentNoteId, c, localUserId a⟩) = b) := by
  have hl : a.currentNoteId.looseEq b.currentNoteId = true := by
    rw [hsame]; exact JsVal.looseEq_self_of_truthy _ hdoc
  constructor
  · intro hne
    have hne2 : (localUserId a).strictEq (localUserId b) = false :=
      JsVal.strictEq_eq_false (Ne.symm hne)
    cases hsel : b.selection <;>
      simp [step, hsock, onDocumentUpdated, hl, hne2, hsel]
  · intro heq
    simp [step, hsock, onDocumentUpdated, heq, JsVal.strictEq_self]

/-- An instance of C2, amended: user 7 receives the edit of a client that is not logged in. -/
theorem delivery_to_other_users_witness :
    (step { openedTab with currentUser := some (.num 7) }
        (.documentUpdated ⟨.num 1, "Hello", .str "Anonymous"⟩)).content = "Hello" :=
  (delivery_to_other_users openedTab { openedTab with currentUser := some (.num 7) } "Hello"
    (by decide) (by decide) (by decide)).1 (by decide)

/-! ## The save machinery: timers -/

/-- Clearing the timer that `typingTimeout` names leaves no timer set. -/
theorem clearTimeout_timers_of_inv (s : Client) (h : TimerInv s) :
    (clearTimeout s s.typingTimeout).timers = [] := by
  cases ht : s.typingTimeout with
  | none =>
    simp only [clearTimeout]
    cases hl : s.timers with
    | nil => rfl
    | cons t ts =>
      have := h t (by simp [hl])
      simp [ht] at this
  | some i =>
    simp only [clearTimeout, List.filter_eq_nil_iff]
    intro t hmem
    have := h t hmem
    simp [ht] at this
    simp [this]

/-- After a user edit the only timer is the new one. -/
theorem step_edit_timers (s : Client) (c : String) (h : TimerInv s) :
    (step s (edit c)).timers = [{ id := s.nextTimer, deadline := s.now + D, content := c }] := by
  simp [step_edit, clearTimeout_timers_of_inv s h]

/-- A user edit arms the save with the edited content. -/
theorem step_edit_armed (s : Client) (c : String) (h : TimerInv s) :
    Armed (step s (edit c)) c := by
  refine ⟨s.nextTimer, ?_, ?_⟩
  · rw [step_edit_timers s c h]; simp [step_edit]
  · simp [step_edit]

/-- An armed state satisfies the timer invariant. -/
theorem armed_timerInv {s : Client} {c : String} (h : Armed s c) : TimerInv s := by
  obtain ⟨id, ht, hh⟩ := h
  intro t hmem
  simp [ht] at hmem
  simp [hh, hmem]

/-- When no timer is due, time passing changes the clock only. -/
theorem advance_not_due (s : Client) (dt : Nat)
    (h : ∀ t ∈ s.timers, s.now + dt < t.deadline) :
    advance s dt = { s with now := s.now + dt } := by
  have h1 : s.timers.filter (fun t => decide (t.deadline ≤ s.now + dt)) = [] := by
    simp only [List.filter_eq_nil_iff]
    intro t hmem
    have := h t hmem
    simp; omega
  have h2 : s.timers.filter (fun t => decide (¬ t.deadline ≤ s.now + dt)) = s.timers := by
    simp only [List.filter_eq_self]
    intro t hmem
    have := h t hmem
    simp; omega
  simp only [advance, h1, h2, List.foldl_nil]

/-- When the only timer is due, it fires and no timer is left. -/
theorem advance_single_due (s : Client) (dt : Nat) (t : Timer)
    (ht : s.timers = [t]) (h : t.deadline ≤ s.now + dt) :
    advance s dt = { fireTimer s t with timers := [], now := s.now + dt } := by
  simp [advance, ht, h, fireTimer]

/-- An edit less than `D` after the save was armed arms it anew; nothing is written. -/
theorem armed_wait_edit (s : Client) (c c' : String) (g : Nat) (h : Armed s c) (hg : g < D) :
    Armed (step (step s (.wait g)) (edit c')) c' ∧
    (step (step s (.wait g)) (edit c')).puts = s.puts ∧
    (step (step s (.wait g)) (edit c')).inflight = s.inflight ∧
    (step (step s (.wait g)) (edit c')).currentNoteId = s.currentNoteId := by
  have hw : step s (.wait g) = { s with now := s.now + g } := by
    obtain ⟨id, ht, -⟩ := h
    show advance s g = _
    apply advance_not_due
    intro t hmem
    simp [ht] at hmem
    simp [hmem]; omega
  have hinv : TimerInv (step s (.wait g)) := by
    rw [hw]; exact (armed_timerInv h : TimerInv s)
  refine ⟨step_edit_armed _ _ hinv, ?_, ?_, ?_⟩ <;> simp [step_edit, hw]

/-- The same along a whole burst. -/
theorem armed_run_rest (rest : List (Nat × String)) :
    ∀ (s : Client) (c : String), Armed s c → (∀ p ∈ rest, p.1 < D) →
      Armed (run s (rest.flatMap (fun p => [.wait p.1, edit p.2]))) (lastContent c rest) ∧
      (run s (rest.flatMap (fun p => [.wait p.1, edit p.2]))).puts = s.puts ∧
      (run s (rest.flatMap (fun p => [.wait p.1, edit p.2]))).inflight = s.inflight ∧
      (run s (rest.flatMap (fun p => [.wait p.1, edit p.2]))).currentNoteId = s.currentNoteId := by
  induction rest with
  | nil => intro s c h _; simpa [run, lastContent] using h
  | cons p ps ih =>
    intro s c h hg
    obtain ⟨h1, h2, h3, h4⟩ := armed_wait_edit s c p.2 p.1 h (hg p (by simp))
    obtain ⟨i1, i2, i3, i4⟩ := ih _ p.2 h1 (fun q hq => hg q (by simp [hq]))
    have hl : lastContent c (p :: ps) = lastContent p.2 ps := rfl
    simp only [List.flatMap_cons, run, List.foldl_append, List.foldl_cons, List.foldl_nil] at i1 i2 i3 i4 ⊢
    rw [hl]
    exact ⟨i1, i2.trans h2, i3.trans h3, i4.trans h4⟩

/-- Once `D` has passed in an armed state, the save is issued for the note open then. -/
theorem armed_wait_fires (s : Client) (c : String) (d : Nat) (h : Armed s c) (hd : D ≤ d) :
    (step s (.wait d)).puts = s.puts ++ [(s.currentNoteId, c)] ∧
    (step s (.wait d)).timers = [] := by
  obtain ⟨id, ht, -⟩ := h
  have : step s (.wait d) = advance s d := rfl
  rw [this, advance_single_due s d _ ht (by simp; omega)]
  simp [fireTimer]

/-- Firing a list of timers appends one write for each. -/
theorem foldl_fireTimer (l : List Timer) : ∀ s : Client,
    l.foldl fireTimer s =
      { s with
        inflight := s.inflight ++ l.map (fun t =>
          { noteId := s.currentNoteId, content := t.content, started := t.deadline })
        puts := s.puts ++ l.map (fun t => (s.currentNoteId, t.content)) } := by
  induction l with
  | nil => intro s; simp
  | cons t ts ih => intro s; simp [ih, fireTimer]

/-- What the passing of time does, field by field. -/
theorem advance_eq (s : Client) (dt : Nat) :
    advance s dt =
      { s with
        inflight := s.inflight ++
          (s.timers.filter (fun t => decide (t.deadline ≤ s.now + dt))).map (fun t =>
            { noteId := s.currentNoteId, content := t.content, started := t.deadline })
        puts := s.puts ++
          (s.timers.filter (fun t => decide (t.deadline ≤ s.now + dt))).map
            (fun t => (s.currentNoteId, t.content))
        timers := s.timers.filter (fun t => decide (¬ t.deadline ≤ s.now + dt))
        now := s.now + dt } := by
  simp [advance, foldl_fireTimer]

/-- The end of a note load leaves the save machinery alone. -/
theorem openEditorForNoteLoaded_frame (s : Client) (i : Nat) (o : FetchOutcome Note) :
    SameSaveState s (openEditorForNoteLoaded s i o) := by
  unfold openEditorForNoteLoaded SameSaveState
  cases s.loads.get? i with
  | none => simp
  | some id =>
    cases h1 : (apiCall o).2 <;> cases h2 : (apiCall o).1 <;> cases h3 : s.socket <;>
      simp [h1, h2, h3]

/-- An incoming `document_updated` leaves the save machinery alone. -/
theorem onDocumentUpdated_frame (s : Client) (data : Updated) :
    SameSaveState s (onDocumentUpdated s data) := by
  unfold onDocumentUpdated SameSaveState
  split
  · cases s.selection <;> simp
  · simp

/-- Closing the editor leaves the save machinery alone. -/
theorem closeEditor_frame (s : Client) : SameSaveState s (closeEditor s) := by
  unfold closeEditor SameSaveState
  split <;> simp

/-- Events other than the passing of time, a user edit and the end of a write
leave the save machinery alone. -/
theorem step_frame (s : Client) (e : Event)
    (hw : ∀ dt, e ≠ .wait dt) (he : ∀ c, e ≠ edit c) (hd : ∀ i o, e ≠ .writeDone i o) :
    SameSaveState s (step s e) := by
  cases e with
  | wait dt => exact absurd rfl (hw dt)
  | textChange src c =>
    cases src with
    | user => exact absurd rfl (he c)
    | api => simp [step, onTextChange, SameSaveState]
    | silent => simp [step, onTextChange, SameSaveState]
  | openNote id => simp [step, openEditorForNote, SameSaveState]
  | noteLoaded i o => exact openEditorForNoteLoaded_frame s i o
  | closeEditor => exact closeEditor_frame s
  | documentUpdated data =>
    simp only [step]
    split
    · exact onDocumentUpdated_frame s data
    · simp [SameSaveState]
  | writeDone i o => exact absurd rfl (hd i o)
  | setUser u => simp [step, SameSaveState]
  | select sel => simp [step, SameSaveState]

/-- The end of a write removes it from the waiting ones and touches no timer. -/
theorem onWriteDone_eq (s : Client) (i : Nat) (o : FetchOutcome Unit) :
    (onWriteDone s i o).timers = s.timers ∧
    (onWriteDone s i o).typingTimeout = s.typingTimeout ∧
    (onWriteDone s i o).inflight = s.inflight.eraseIdx i ∧
    (onWriteDone s i o).puts = s.puts ∧
    (onWriteDone s i o).now = s.now := by
  unfold onWriteDone
  split
  · cases h2 : (apiCall o).2 <;> simp [h2]
  · rename_i h
    simp [List.eraseIdx_of_length_le (Nat.le_of_not_lt h)]

/-- Every event is the passing of time, a user edit, the end of a write, or leaves the save machinery alone. -/
theorem step_cases (s : Client) (e : Event) :
    (∃ dt, e = .wait dt) ∨ (∃ c, e = edit c) ∨ (∃ i o, e = .writeDone i o) ∨
    (SameSaveState s (step s e) ∧ ∀ last, noteEdit last e = last) := by
  by_cases hw : ∃ dt, e = .wait dt
  · exact Or.inl hw
  by_cases he : ∃ c, e = edit c
  · exact Or.inr (Or.inl he)
  by_cases hd : ∃ i o, e = .writeDone i o
  · exact Or.inr (Or.inr (Or.inl hd))
  refine Or.inr (Or.inr (Or.inr ⟨step_frame s e ?_ ?_ ?_, ?_⟩))
  · intro dt h; exact hw ⟨dt, h⟩
  · intro c h; exact he ⟨c, h⟩
  · intro i o h; exact hd ⟨i, o, h⟩
  · intro last
    cases e with
    | textChange src c =>
      cases src with
      | user => exact absurd ⟨c, rfl⟩ he
      | api => rfl
      | silent => rfl
    | _ => rfl

/-- The pending-write invariant contains the timer invariant. -/
theorem pendingInv_timerInv {s : Client} {last : Option String} (h : PendingInv s last) :
    TimerInv s := fun t ht => (h.2 t ht).1

/-- Every event preserves the pending-write invariant. -/
theorem pendingInv_step (s : Client) (e : Event) (last : Option String)
    (h : PendingInv s last) : PendingInv (step s e) (noteEdit last e) := by
  rcases step_cases s e with ⟨dt, rfl⟩ | ⟨c, rfl⟩ | ⟨i, o, rfl⟩ | ⟨hf, hl⟩
  · show PendingInv (advance s dt) last
    rw [advance_eq]
    refine ⟨le_trans (List.length_filter_le _ _) h.1, ?_⟩
    intro t ht
    simp only [List.mem_filter, decide_eq_true_eq] at ht
    obtain ⟨h1, h2, h3, h4⟩ := h.2 t ht.1
    refine ⟨h1, h2, ?_, ?_⟩
    · show s.now + dt < t.deadline
      omega
    · show t.deadline ≤ s.now + dt + D
      omega
  · refine ⟨by rw [step_edit_timers s c (pendingInv_timerInv h)]; simp, ?_⟩
    intro t ht
    rw [step_edit_timers s c (pendingInv_timerInv h)] at ht
    simp only [List.mem_singleton] at ht
    subst ht
    simp [step_edit, noteEdit, D]
  · obtain ⟨e1, e2, -, -, e5⟩ := onWriteDone_eq s i o
    show PendingInv (onWriteDone s i o) last
    unfold PendingInv
    rw [e1, e2, e5]
    exact h
  · obtain ⟨e1, e2, -, -, e5, -⟩ := hf
    unfold PendingInv
    rw [hl, e1, e2, e5]
    exact h

/-- Every list of events preserves the pending-write invariant. -/
theorem pendingInv_run (evs : List Event) : ∀ (s : Client) (last : Option String),
    PendingInv s last → PendingInv (run s evs) (evs.foldl noteEdit last) := by
  induction evs with
  | nil => intro s last h; exact h
  | cons e es ih => intro s last h; exact ih _ _ (pendingInv_step s e last h)

/-- The fresh page satisfies the pending-write invariant. -/
theorem pendingInv_fresh (status : String) : PendingInv (fresh status) none := by
  simp [PendingInv, fresh]

/-- Every reachable state satisfies the timer invariant. -/
theorem reachable_timerInv {s : Client} (h : Reachable s) : TimerInv s := by
  obtain ⟨status, evs, rfl⟩ := h
  exact pendingInv_timerInv (pendingInv_run evs _ _ (pendingInv_fresh status))

/-- Every event after which the waiting writes are younger than `D` preserves the write invariant. -/
theorem writeInv_step (s : Client) (e : Event) (last : Option String)
    (hp : PendingInv s last) (h : WriteInv s)
    (hlat : latencyBounded D (step s e) = true) : WriteInv (step s e) := by
  obtain ⟨w1, w2, w3⟩ := h
  rcases step_cases s e with ⟨dt, rfl⟩ | ⟨c, rfl⟩ | ⟨i, o, rfl⟩ | ⟨hf, -⟩
  · have hs : step s (.wait dt) = advance s dt := rfl
    rw [hs] at hlat ⊢
    by_cases hdue : ∀ t ∈ s.timers, s.now + dt < t.deadline
    · rw [advance_not_due s dt hdue]
      exact ⟨w1, fun r hr => le_trans (w2 r hr) (Nat.le_add_right _ _), w3⟩
    · push_neg at hdue
      obtain ⟨t, ht, hle⟩ := hdue
      have hts : s.timers = [t] := by
        have := hp.1
        match hl : s.timers, this, ht with
        | [x], _, hm => simp [hl] at ht; rw [ht]
      rw [advance_single_due s dt t hts hle] at hlat ⊢
      have hempty : s.inflight = [] := by
        cases hin : s.inflight with
        | nil => rfl
        | cons r rs =>
          exfalso
          have h1 := w3 t ht r (by simp [hin])
          simp [latencyBounded, fireTimer, hin] at hlat
          omega
      simp [WriteInv, fireTimer, hempty, hle]
  · have ht := step_edit_timers s c (pendingInv_timerInv hp)
    unfold WriteInv
    rw [ht]
    simp only [step_edit, List.mem_singleton]
    refine ⟨w1, w2, ?_⟩
    intro t ht r hr
    subst ht
    have := w2 r hr
    show r.started + D ≤ s.now + D
    omega
  · obtain ⟨e1, -, e3, -, e5⟩ := onWriteDone_eq s i o
    show WriteInv (onWriteDone s i o)
    unfold WriteInv
    rw [e1, e3, e5]
    refine ⟨le_trans (List.length_eraseIdx_le _ _) w1, ?_, ?_⟩
    · intro r hr; exact w2 r (List.mem_of_mem_eraseIdx hr)
    · intro t ht r hr; exact w3 t ht r (List.mem_of_mem_eraseIdx hr)
  · obtain ⟨e1, -, e3, -, e5, -⟩ := hf
    unfold WriteInv
    rw [e1, e3, e5]
    exact ⟨w1, w2, w3⟩

/-- The same along a list of events. -/
theorem writeInv_run (evs : List Event) : ∀ (s : Client) (last : Option String),
    PendingInv s last → WriteInv s → latencyOk D s evs = true → WriteInv (run s evs) := by
  induction evs with
  | nil => intro s last _ h _; exact h
  | cons e es ih =>
    intro s last hp h hl
    simp only [latencyOk, Bool.and_eq_true] at hl
    exact ih _ _ (pendingInv_step s e last hp) (writeInv_step s e last hp h hl.1) hl.2

/-! ## C3, C4: the debounce -/

/-- C3: a burst of user edits, each less than `D` after the one before it,
issues no save while it lasts; once `D` (or more) has passed after its last
edit, exactly one save has been issued for it, with the content of the last
edit, and no save remains scheduled. -/
theorem debounce_collapsing (s : Client) (c0 : String) (rest : List (Nat × String))
    (d : Nat) (hs : Reachable s) (hgaps : ∀ p ∈ rest, p.1 < D) (hd : D ≤ d) :
    (run s (burst c0 rest)).puts = s.puts ∧
    (run s (burst c0 rest ++ [.wait d])).puts
        = s.puts ++ [(s.currentNoteId, lastContent c0 rest)] ∧
    (run s (burst c0 rest ++ [.wait d])).timers = [] := by
  have h0 : Armed (step s (edit c0)) c0 := step_edit_armed s c0 (reachable_timerInv hs)
  obtain ⟨a1, a2, -, a4⟩ := armed_run_rest rest _ c0 h0 hgaps
  have hb : run s (burst c0 rest)
      = run (step s (edit c0)) (rest.flatMap (fun p => [.wait p.1, edit p.2])) := rfl
  have hp : (step s (edit c0)).puts = s.puts := by simp [step_edit]
  have hn : (step s (edit c0)).currentNoteId = s.currentNoteId := by simp [step_edit]
  have hw : run s (burst c0 rest ++ [.wait d]) = step (run s (burst c0 rest)) (.wait d) := by
    simp [run, List.foldl_append]
  rw [hw, hb]
  obtain ⟨f1, f2⟩ := armed_wait_fires _ _ d a1 hd
  exact ⟨a2.trans hp, by rw [f1, a2, hp, a4, hn], f2⟩

/-- An instance of C3: the edits `H`, `He`, `Hel` 100 ms apart, then one second. -/
theorem debounce_collapsing_witness :
    Reachable openedTab ∧ (∀ p ∈ [(100, "He"), (100, "Hel")], p.1 < D) ∧ D ≤ 1000 ∧
    (run openedTab (burst "H" [(100, "He"), (100, "Hel")] ++ [.wait 1000])).puts
      = [(.num 1, "Hel")] :=
  ⟨⟨"", _, rfl⟩, by decide, by decide,
    (debounce_collapsing openedTab "H" [(100, "He"), (100, "Hel")] 1000
      ⟨"", _, rfl⟩ (by decide) (by decide)).2.1⟩

/-- C4, as stated, fails: an edit 500 ms after the first moves the deadline of
the scheduled save from 1000 to 1500, and with an edit every 500 ms no save
has been issued 1500 ms after the first edit. -/
theorem deadline_moves_with_each_edit :
    (run openedTab [edit "a"]).timers = [{ id := 0, deadline := 1000, content := "a" }] ∧
    (run openedTab [edit "a", .wait 500, edit "ab"]).timers
      = [{ id := 1, deadline := 1500, content := "ab" }] ∧
    (run openedTab [edit "a", .wait 500, edit "ab", .wait 500, edit "abc", .wait 500]).now
      = 1500 ∧
    (run openedTab [edit "a", .wait 500, edit "ab", .wait 500, edit "abc", .wait 500]).puts
      = [] := by
  decide

/-- C4, amended: every user edit cancels the scheduled save and schedules a
new one `D` after itself, so during a burst of edits less than `D` apart no
save is issued, and after the burst the only scheduled save holds the content
of the last edit and is due `D` after that edit. -/
theorem edit_restarts_debounce (s : Client) (c0 : String) (rest : List (Nat × String))
    (hs : Reachable s) (hgaps : ∀ p ∈ rest, p.1 < D) :
    (step s (edit c0)).timers
        = [{ id := s.nextTimer, deadline := s.now + D, content := c0 }] ∧
    (∃ id, (run s (burst c0 rest)).timers
        = [{ id := id, deadline := (run s (burst c0 rest)).now + D,
             content := lastContent c0 rest }]) ∧
    (run s (burst c0 rest)).puts = s.puts := by
  have hi := reachable_timerInv hs
  obtain ⟨a1, a2, -, -⟩ := armed_run_rest rest _ c0 (step_edit_armed s c0 hi) hgaps
  have hb : run s (burst c0 rest)
      = run (step s (edit c0)) (rest.flatMap (fun p => [.wait p.1, edit p.2])) := rfl
  have hp : (step s (edit c0)).puts = s.puts := by simp [step_edit]
  rw [hb]
  obtain ⟨id, ht, -⟩ := a1
  exact ⟨step_edit_timers s c0 hi, ⟨id, ht⟩, a2.trans hp⟩

/-- An instance of C4, amended: three edits 900 ms apart issue no save. -/
theorem edit_restarts_debounce_witness :
    Reachable openedTab ∧ (∀ p ∈ [(900, "ab"), (900, "abc")], p.1 < D) ∧
    (run openedTab (burst "a" [(900, "ab"), (900, "abc")])).puts = openedTab.puts :=
  ⟨⟨"", _, rfl⟩, by decide,
    (edit_restarts_debounce openedTab "a" [(900, "ab"), (900, "abc")]
      ⟨"", _, rfl⟩ (by decide)).2.2⟩

/-! ## C5, C6: the save and the note it belongs to -/

/-- C5: the code at the failing inputs.  An edit of note 1 is followed within
the debounce delay by closing the editor and opening note 2: the save of the
edit goes to note 2.  When the editor is only closed, the save goes to the
note id `null`. -/
theorem scheduled_save_follows_currentNoteId :
    (run (fresh "")
      [.openNote (.num 1), .noteLoaded 0 (.response 200 (some ⟨"One", some "old"⟩)),
       edit "x", .closeEditor,
       .openNote (.num 2), .noteLoaded 0 (.response 200 (some ⟨"Two", some "other"⟩)),
       .wait 1000]).puts = [(.num 2, "x")] ∧
    (run (fresh "")
      [.openNote (.num 1), .noteLoaded 0 (.response 200 (some ⟨"One", some "old"⟩)),
       edit "x", .closeEditor, .wait 1000]).puts = [(.null, "x")] ∧
    (run (fresh "")
      [.openNote (.num 1), .noteLoaded 0 (.response 200 (some ⟨"One", some "old"⟩)),
       edit "x", .openNote (.num 2), .noteLoaded 0 .networkFailure,
       .wait 1000]).puts = [(.num 2, "x")] := by
  decide

/-- C6, as stated, fails: note 1 is edited and the editor closed at once.
After the close, `leave_document` has been emitted, nothing has been written,
and the timer of the save is still set. -/
theorem close_does_not_flush :
    (run openedTab [edit "x", .closeEditor]).emitted.getLast?
      = some (.leave_document (.num 1)) ∧
    (run openedTab [edit "x", .closeEditor]).puts = [] ∧
    (run openedTab [edit "x", .closeEditor]).timers
      = [{ id := 0, deadline := 1000, content := "x" }] := by
  decide

/-- C6, amended: closing the editor emits `leave_document` for the open note
(when there is a socket and the note id is truthy) and sets `currentNoteId` to
null; it writes nothing and leaves the scheduled save, its timer and its
content as they were. -/
theorem close_leaves_save_scheduled (s : Client) :
    (step s .closeEditor).emitted
        = (if s.socket && s.currentNoteId.truthy
            then s.emitted ++ [.leave_document s.currentNoteId] else s.emitted) ∧
    (step s .closeEditor).currentNoteId = .null ∧
    (step s .closeEditor).puts = s.puts ∧
    (step s .closeEditor).inflight = s.inflight ∧
    (step s .closeEditor).timers = s.timers ∧
    (step s .closeEditor).typingTimeout = s.typingTimeout := by
  cases h : (s.socket && s.currentNoteId.truthy) <;> simp [step, closeEditor, h]

/-! ## C7, C8, C9: writes in flight, failures, the indicator -/

/-- C7, as stated, fails: the write of the first edit is not answered; a
second edit 1000 ms later starts its own write for the same note while the
first still waits. -/
theorem two_writes_in_flight :
    (run openedTab [edit "a", .wait 1000, edit "ab", .wait 1000]).inflight
      = [{ noteId := .num 1, content := "a", started := 1000 },
         { noteId := .num 1, content := "ab", started := 2000 }] := by
  decide

/-- C7, amended: when every write is answered less than `D` after it started,
at most one save is in flight in every reachable state. -/
theorem one_write_in_flight_when_answers_are_fast (status : String) (evs : List Event)
    (h : latencyOk D (fresh status) evs = true) :
    (run (fresh status) evs).inflight.length ≤ 1 :=
  (writeInv_run evs (fresh status) none (pendingInv_fresh status)
    (by simp [WriteInv, fresh]) h).1

/-- An instance of C7, amended: a write answered after 300 ms. -/
theorem one_write_in_flight_when_answers_are_fast_witness :
    latencyOk D (fresh "")
      [.openNote (.num 1), .noteLoaded 0 (.response 200 (some ⟨"One", some "old"⟩)),
       edit "a", .wait 1000, edit "ab", .wait 300, .writeDone 0 (.response 200 (some ())),
       .wait 700] = true ∧
    (run (fresh "")
      [.openNote (.num 1), .noteLoaded 0 (.response 200 (some ⟨"One", some "old"⟩)),
       edit "a", .wait 1000, edit "ab", .wait 300, .writeDone 0 (.response 200 (some ())),
       .wait 700]).inflight.length ≤ 1 :=
  ⟨by decide, one_write_in_flight_when_answers_are_fast "" _ (by decide)⟩

/-- C8, as stated, fails: the write of an edit fails, and a minute later the
snapshot has still been written only once, with nothing scheduled or waiting. -/
theorem failed_write_not_repeated :
    (run openedTab [edit "x", .wait 1000, .writeDone 0 .networkFailure, .wait 60000]).puts
      = [(.num 1, "x")] ∧
    (run openedTab [edit "x", .wait 1000, .writeDone 0 .networkFailure, .wait 60000]).timers
      = [] ∧
    (run openedTab [edit "x", .wait 1000, .writeDone 0 .networkFailure, .wait 60000]).inflight
      = [] := by
  decide

/-- C8, amended: the snapshot of an edit is written exactly once, whatever the
outcome of the write; after a failure nothing is written again and nothing is
scheduled. -/
theorem snapshot_written_once (s : Client) (c : String) (d d' i : Nat)
    (o : FetchOutcome Unit) (hs : Reachable s) (hd : D ≤ d) :
    (run s [edit c, .wait d, .writeDone i o, .wait d']).puts
        = s.puts ++ [(s.currentNoteId, c)] ∧
    (run s [edit c, .wait d, .writeDone i o, .wait d']).timers = [] := by
  have h0 : Armed (step s (edit c)) c := step_edit_armed s c (reachable_timerInv hs)
  obtain ⟨f1, f2⟩ := armed_wait_fires _ _ d h0 hd
  have hp : (step s (edit c)).puts = s.puts := by simp [step_edit]
  have hn : (step s (edit c)).currentNoteId = s.currentNoteId := by simp [step_edit]
  obtain ⟨e1, -, -, e4, -⟩ := onWriteDone_eq (step (step s (edit c)) (.wait d)) i o
  have hr : run s [edit c, .wait d, .writeDone i o, .wait d']
      = advance (onWriteDone (step (step s (edit c)) (.wait d)) i o) d' := rfl
  rw [hr, advance_not_due _ _ (by rw [e1, f2]; simp)]
  exact ⟨by show (onWriteDone _ i o).puts = _; rw [e4, f1, hp, hn],
    by show (onWriteDone _ i o).timers = _; rw [e1, f2]⟩

/-- An instance of C8, amended: the write is answered with status 500 and an unparseable body. -/
theorem snapshot_written_once_witness :
    Reachable openedTab ∧ D ≤ 1000 ∧
    (run openedTab [edit "x", .wait 1000, .writeDone 0 (.response 500 none), .wait 5000]).puts
      = [(.num 1, "x")] :=
  ⟨⟨"", _, rfl⟩, by decide,
    (snapshot_written_once openedTab "x" 1000 5000 0 (.response 500 none)
      ⟨"", _, rfl⟩ (by decide)).1⟩

/-- C9: the code at the failing inputs.  A write that fails (`apiCall` gives
null) is followed by the indicator `Saved`; so is a write answered while a
later edit still waits for its save. -/
theorem saved_shown_without_confirmation :
    (apiCall (.networkFailure : FetchOutcome Unit)).1 = none ∧
    (run openedTab [edit "x", .wait 1000, .writeDone 0 .networkFailure]).syncStatus
      = "Saved" ∧
    (run openedTab [edit "x", .wait 1000, edit "xy",
      .writeDone 0 (.response 200 (some ()))]).syncStatus = "Saved" ∧
    (run openedTab [edit "x", .wait 1000, edit "xy",
      .writeDone 0 (.response 200 (some ()))]).timers
      = [{ id := 1, deadline := 2000, content := "xy" }] := by
  decide

/-! ## C10: one pending write -/

/-- C10: in every reachable state at most one debounce timer is set; it is the
one `typingTimeout` names and the content it will write is that of the latest
user edit.  Right after a user edit exactly one is set. -/
theorem at_most_one_pending_write (status : String) (evs : List Event) :
    (run (fresh status) evs).timers.length ≤ 1 ∧
    (∀ t ∈ (run (fresh status) evs).timers,
      lastUserEdit evs = some t.content ∧
      (run (fresh status) evs).typingTimeout = some t.id) ∧
    ∀ c, (run (fresh status) (evs ++ [edit c])).timers.length = 1 := by
  have h := pendingInv_run evs (fresh status) none (pendingInv_fresh status)
  refine ⟨h.1, fun t ht => ⟨(h.2 t ht).2.1, (h.2 t ht).1⟩, ?_⟩
  intro c
  have hr : run (fresh status) (evs ++ [edit c]) = step (run (fresh status) evs) (edit c) := by
    simp [run, List.foldl_append]
  rw [hr, step_edit_timers _ c (pendingInv_timerInv h)]
  rfl

/-! ## C11 to C14: what is emitted, and what is applied -/

/-- C11: the code at the failing inputs.  Notes 1 and 2 are opened one right
after the other; the load of note 1 succeeds and shows the editor, the load of
note 2 fails; the user edits.  The edit is emitted for document 2, which was
never joined.  The same happens after note 1 was opened and closed and the
load of note 2 failed. -/
theorem edit_emitted_without_join :
    (run (fresh "")
      [.openNote (.num 1), .openNote (.num 2),
       .noteLoaded 0 (.response 200 (some ⟨"One", some "old"⟩)),
       .noteLoaded 0 .networkFailure, edit "x"]).emitted
      = [.join_document (.num 1) (.str "Anonymous"),
         .edit_document (.num 2) "x" (.str "Anonymous")] ∧
    editsWhileJoined []
      (run (fresh "")
        [.openNote (.num 1), .openNote (.num 2),
         .noteLoaded 0 (.response 200 (some ⟨"One", some "old"⟩)),
         .noteLoaded 0 .networkFailure, edit "x"]).emitted = false ∧
    (run openedTab [.closeEditor, .openNote (.num 2), .noteLoaded 0 .networkFailure,
        edit "x"]).emitted
      = [.join_document (.num 1) (.str "Anonymous"), .leave_document (.num 1),
         .edit_document (.num 2) "x" (.str "Anonymous")] := by
  decide

/-- C12: when the load of a call `openEditorForNote(id)` succeeds, exactly one
`join_document` is emitted, for `id` and the local user identifier; when it
fails nothing is emitted.  A user edit emits nothing or one `edit_document`
with the local user identifier.  That identifier is the id of the current
user, or `Anonymous` when there is none. -/
theorem join_payload_and_identity (s : Client) (i : Nat) (o : FetchOutcome Note)
    (id : JsVal) (hid : s.loads.get? i = some id) :
    (∀ note, (apiCall o).1 = some note →
      (step s (.noteLoaded i o)).emitted
        = s.emitted ++ [.join_document id (localUserId s)]) ∧
    ((apiCall o).1 = none → (step s (.noteLoaded i o)).emitted = s.emitted) ∧
    (∀ (s' : Client) (c : String),
      (step s' (edit c)).emitted = s'.emitted ∨
      (step s' (edit c)).emitted
        = s'.emitted ++ [.edit_document s'.currentNoteId c (localUserId s')]) ∧
    (∀ (s' : Client) (u : JsVal), s'.currentUser = some u → localUserId s' = u) ∧
    (∀ s' : Client, s'.currentUser = none → localUserId s' = .str "Anonymous") := by
  have hid' : s.loads[i]? = some id := by simpa using hid
  refine ⟨?_, ?_, ?_, ?_, ?_⟩
  · intro note hn
    cases h1 : (apiCall o).2 <;> cases h3 : s.socket <;>
      simp [step, openEditorForNoteLoaded, hid', hn, h1, h3, localUserId]
  · intro hn
    cases h1 : (apiCall o).2 <;> simp [step, openEditorForNoteLoaded, hid', hn, h1]
  · intro s' c
    cases h : (s'.socket && s'.currentNoteId.truthy) <;> simp [step_edit, h]
  · intro s' u hu
    simp [localUserId, hu]
  · intro s' hu
    simp [localUserId, hu]

/-- An instance of C12: a logged-in user 7 opens note 3. -/
theorem join_payload_and_identity_witness :
    (step (step (step (fresh "") (.setUser (some (.num 7)))) (.openNote (.num 3)))
        (.noteLoaded 0 (.response 200 (some ⟨"Three", none⟩)))).emitted
      = [.join_document (.num 3) (.num 7)] :=
  (join_payload_and_identity
    (step (step (fresh "") (.setUser (some (.num 7)))) (.openNote (.num 3))) 0
    (.response 200 (some ⟨"Three", none⟩)) (.num 3) (by decide)).1 ⟨"Three", none⟩
    (by decide)

/-- A quiet event leaves the timers, the issued writes and the clock alone. -/
theorem quiet_step (s : Client) (e : Event) (h : e.quiet = true) :
    (step s e).timers = s.timers ∧ (step s e).typingTimeout = s.typingTimeout ∧
    (step s e).puts = s.puts ∧ (step s e).now = s.now := by
  rcases step_cases s e with ⟨dt, rfl⟩ | ⟨c, rfl⟩ | ⟨i, o, rfl⟩ | ⟨hf, -⟩
  · simp [Event.quiet] at h
  · simp [Event.quiet] at h
  · obtain ⟨e1, e2, -, e4, e5⟩ := onWriteDone_eq s i o
    exact ⟨e1, e2, e4, e5⟩
  · obtain ⟨e1, e2, -, e4, e5, -⟩ := hf
    exact ⟨e1, e2, e4, e5⟩

/-- Quiet events keep an armed save armed and issue no write. -/
theorem quiet_run (evs : List Event) : ∀ (s : Client) (c : String),
    Armed s c → (∀ e ∈ evs, e.quiet = true) →
      Armed (run s evs) c ∧ (run s evs).puts = s.puts := by
  induction evs with
  | nil => intro s c h _; exact ⟨h, rfl⟩
  | cons e es ih =>
    intro s c h hq
    obtain ⟨q1, q2, q3, q4⟩ := quiet_step s e (hq e (by simp))
    have ha : Armed (step s e) c := by
      obtain ⟨id, ht, hh⟩ := h
      exact ⟨id, by rw [q1, q4]; exact ht, by rw [q2]; exact hh⟩
    obtain ⟨i1, i2⟩ := ih (step s e) c ha (fun e' he' => hq e' (by simp [he']))
    exact ⟨i1, i2.trans q3⟩

/-- C13: a user edit that makes the editor body `c` emits `c` in its
`edit_document` and schedules a save of `c`; whatever happens to the editor
body before the timer fires (events other than a further user edit), the save
that is then issued writes `c`. -/
theorem snapshot_on_sending_side (s : Client) (c : String) (evs : List Event) (d : Nat)
    (hs : Reachable s) (hq : ∀ e ∈ evs, e.quiet = true) (hd : D ≤ d) :
    (step s (edit c)).content = c ∧
    (s.socket = true → s.currentNoteId.truthy = true →
      (step s (edit c)).emitted
        = s.emitted ++ [.edit_document s.currentNoteId c (localUserId s)]) ∧
    (step s (edit c)).timers
      = [{ id := s.nextTimer, deadline := s.now + D, content := c }] ∧
    (run (step s (edit c)) (evs ++ [.wait d])).puts
      = s.puts ++ [((run (step s (edit c)) evs).currentNoteId, c)] := by
  have hi := reachable_timerInv hs
  refine ⟨by simp [step_edit], ?_, step_edit_timers s c hi, ?_⟩
  · intro h1 h2
    simp [step_edit, h1, h2]
  · obtain ⟨a1, a2⟩ := quiet_run evs _ c (step_edit_armed s c hi) hq
    have hw : run (step s (edit c)) (evs ++ [.wait d])
        = step (run (step s (edit c)) evs) (.wait d) := by
      simp [run, List.foldl_append]
    have hp : (step s (edit c)).puts = s.puts := by simp [step_edit]
    rw [hw, (armed_wait_fires _ c d a1 hd).1, a2, hp]

/-- An instance of C13: after the edit `x`, user 7 replaces the body with
`remote`; the save still writes `x`. -/
theorem snapshot_on_sending_side_witness :
    Reachable openedTab ∧
    (run (step openedTab (edit "x"))
      [.documentUpdated ⟨.num 1, "remote", .num 7⟩]).content = "remote" ∧
    (run (step openedTab (edit "x"))
      ([.documentUpdated ⟨.num 1, "remote", .num 7⟩] ++ [.wait 1000])).puts
      = [(.num 1, "x")] :=
  ⟨⟨"", _, rfl⟩, by decide,
    (snapshot_on_sending_side openedTab "x" [.documentUpdated ⟨.num 1, "remote", .num 7⟩]
      1000 ⟨"", _, rfl⟩ (by decide) (by decide)).2.2.2⟩

/-- C14: the handler of `document_updated` replaces the editor body with the
content of the event, and asks Quill again for the selection it found, with
its index and length, when there was one (the replacement alone loses it),
exactly when the document id of the event equals the open note id in the
sense of `==` and the user id of the event differs from the local user
identifier; in every other case it changes nothing.  So an event that carries
the local user identifier is never applied.  For two numbers `==` is equality,
for two strings equality of the texts, and for a number and a string equality
of the number with the number the engine converts the string to, so that the
string `1.0` equals the number 1; a string `str t`, which converts to no
integer, equals no number. -/
theorem echo_rule_keyed_by_user (s : Client) (data : Updated) :
    (data.document_id.looseEq s.currentNoteId = true ∧ data.user_id ≠ localUserId s →
      onDocumentUpdated s data = { s with content := data.content }) ∧
    (¬ (data.document_id.looseEq s.currentNoteId = true ∧ data.user_id ≠ localUserId s) →
      onDocumentUpdated s data = s) ∧
    (data.user_id = localUserId s → onDocumentUpdated s data = s) ∧
    (onDocumentUpdated s data).selection = s.selection ∧
    (∀ sel, s.selection = some sel →
      data.document_id.looseEq s.currentNoteId = true → data.user_id ≠ localUserId s →
      (setInnerHTML s data.content).selection = none ∧
      onDocumentUpdated s data
        = setSelection (setInnerHTML s data.content) sel.index sel.length) ∧
    (∀ a b : Int, JsVal.looseEq (.num a) (.num b) = true ↔ a = b) ∧
    (∀ a b : String, JsVal.looseEq (.str a) (.str b) = true ↔ a = b) ∧
    (∀ (a b : String) (m n : Int),
      JsVal.looseEq (.numeral a m) (.numeral b n) = true ↔ a = b) ∧
    (∀ (a n : Int) (t : String), JsVal.looseEq (.num a) (.numeral t n) = true ↔ a = n) ∧
    (∀ (a n : Int) (t : String), JsVal.looseEq (.numeral t n) (.num a) = true ↔ n = a) ∧
    (∀ (a : Int) (t : String), JsVal.looseEq (.num a) (.str t) = false ∧
      JsVal.looseEq (.str t) (.num a) = false) := by
  refine ⟨?_, ?_, ?_, ?_, ?_, ?_, ?_, ?_, ?_, ?_, ?_⟩
  · rintro ⟨h1, h2⟩
    cases hsel : s.selection <;>
      simp [onDocumentUpdated, h1, JsVal.strictEq_eq_false h2, hsel]
  · intro h
    by_cases h1 : data.document_id.looseEq s.currentNoteId = true
    · have h2 : data.user_id = localUserId s := by
        by_contra hne; exact h ⟨h1, hne⟩
      simp [onDocumentUpdated, h2, JsVal.strictEq_self]
    · simp [onDocumentUpdated, h1]
  · intro h2
    simp [onDocumentUpdated, h2, JsVal.strictEq_self]
  · unfold onDocumentUpdated
    split
    · cases hsel : s.selection <;> simp
    · rfl
  · intro sel hsel h1 h2
    simp [onDocumentUpdated, h1, JsVal.strictEq_eq_false h2, hsel]
  · intro a b; simp [JsVal.looseEq]
  · intro a b; simp [JsVal.looseEq]
  · intro a b m n; simp [JsVal.looseEq]
  · intro a n t; simp [JsVal.looseEq]
  · intro a n t; simp [JsVal.looseEq]
  · intro a t; simp [JsVal.looseEq]

/-- An instance of C14: user 7 is told of an edit of the open note 1 by a
client that is not logged in, once with the document id 1 and once with the
string `1.0`, which the engine converts to 1; the selection is kept. -/
theorem echo_rule_keyed_by_user_witness :
    onDocumentUpdated
        { openedTab with currentUser := some (.num 7), selection := some ⟨2, 3⟩ }
        ⟨.num 1, "Hello", .str "Anonymous"⟩
      = { openedTab with
          currentUser := some (.num 7), selection := some ⟨2, 3⟩, content := "Hello" } ∧
    onDocumentUpdated
        { openedTab with currentUser := some (.num 7), selection := some ⟨2, 3⟩ }
        ⟨.numeral "1.0" 1, "Hello", .str "Anonymous"⟩
      = { openedTab with
          currentUser := some (.num 7), selection := some ⟨2, 3⟩, content := "Hello" } :=
  ⟨(echo_rule_keyed_by_user
      { openedTab with currentUser := some (.num 7), selection := some ⟨2, 3⟩ }
      ⟨.num 1, "Hello", .str "Anonymous"⟩).1 ⟨by decide, by decide⟩,
    (echo_rule_keyed_by_user
      { openedTab with currentUser := some (.num 7), selection := some ⟨2, 3⟩ }
      ⟨.numeral "1.0" 1, "Hello", .str "Anonymous"⟩).1 ⟨by decide, by decide⟩⟩

/-! ## C19: one socket, one handler of each kind -/

/-- Only the end of a note load touches the socket and its handlers. -/
theorem step_socket_frame (s : Client) (e : Event) (h : ∀ i o, e ≠ .noteLoaded i o) :
    (step s e).socket = s.socket ∧ (step s e).socketsCreated = s.socketsCreated ∧
    (step s e).connectHandlers = s.connectHandlers ∧
    (step s e).joinedHandlers = s.joinedHandlers ∧
    (step s e).updatedHandlers = s.updatedHandlers := by
  cases e with
  | wait dt => simp [step, advance_eq]
  | textChange src c =>
    cases src with
    | user => simp [step_edit]
    | api => simp [step, onTextChange]
    | silent => simp [step, onTextChange]
  | openNote id => simp [step, openEditorForNote]
  | noteLoaded i o => exact absurd rfl (h i o)
  | closeEditor =>
    cases hc : (s.socket && s.currentNoteId.truthy) <;> simp [step, closeEditor, hc]
  | documentUpdated data =>
    simp only [step, onDocumentUpdated]
    split
    · split
      · cases s.selection <;> simp
      · simp
    · simp
  | writeDone i o =>
    simp only [step, onWriteDone]
    split
    · cases h2 : (apiCall o).2 <;> simp [h2]
    · simp
  | setUser u => simp [step]
  | select sel => simp [step]

/-- Every event preserves the socket invariant. -/
theorem socketInv_step (s : Client) (e : Event) (h : SocketInv s) : SocketInv (step s e) := by
  by_cases hl : ∃ i o, e = .noteLoaded i o
  · obtain ⟨i, o, rfl⟩ := hl
    obtain ⟨h1, h2, h3, h4⟩ := h
    simp only [step, openEditorForNoteLoaded]
    cases hg : s.loads.get? i with
    | none => exact ⟨h1, h2, h3, h4⟩
    | some id =>
      cases hs : s.socket <;> cases ha : (apiCall o).1 <;> cases hb : (apiCall o).2 <;>
        simp_all [SocketInv]
  · have hn : ∀ i o, e ≠ .noteLoaded i o := fun i o he => hl ⟨i, o, he⟩
    obtain ⟨f1, f2, f3, f4, f5⟩ := step_socket_frame s e hn
    unfold SocketInv
    rw [f1, f2, f3, f4, f5]
    exact h

/-- Every reachable state satisfies the socket invariant. -/
theorem socketInv_run (evs : List Event) : ∀ s : Client, SocketInv s → SocketInv (run s evs) := by
  induction evs with
  | nil => intro s h; exact h
  | cons e es ih => intro s h; exact ih _ (socketInv_step s e h)

/-- Under the socket invariant, delivering `document_updated` to every
registered handler is what `step` does. -/
theorem dispatch_eq_step (s : Client) (data : Updated) (h : SocketInv s) :
    dispatchDocumentUpdated s data = step s (.documentUpdated data) := by
  obtain ⟨-, -, -, h4⟩ := h
  cases hs : s.socket <;> simp [dispatchDocumentUpdated, step, h4, hs]

/-- C19: in every reachable state the socket has been created at most once and
at most one handler of `connect`, of `user_joined` and of `document_updated`
is registered; an incoming `document_updated` runs the handler at most once:
once when there is a socket, not at all when there is none.  After a note has
been loaded the socket exists. -/
theorem single_socket_single_handlers (status : String) (evs : List Event) :
    (run (fresh status) evs).socketsCreated ≤ 1 ∧
    (run (fresh status) evs).connectHandlers ≤ 1 ∧
    (run (fresh status) evs).joinedHandlers ≤ 1 ∧
    (run (fresh status) evs).updatedHandlers ≤ 1 ∧
    (∀ data, dispatchDocumentUpdated (run (fresh status) evs) data
      = if (run (fresh status) evs).socket
          then onDocumentUpdated (run (fresh status) evs) data
          else run (fresh status) evs) ∧
    (∀ id note, (run (fresh status)
        (evs ++ [.openNote id, .noteLoaded (run (fresh status) evs).loads.length
          (.response 200 (some note))])).socketsCreated = 1) := by
  have h0 : SocketInv (fresh status) := by simp [SocketInv, fresh]
  have h := socketInv_run evs _ h0
  obtain ⟨h1, h2, h3, h4⟩ := h
  refine ⟨?_, ?_, ?_, ?_, ?_, ?_⟩
  · rw [h1]; split <;> simp
  · rw [h2]; split <;> simp
  · rw [h3]; split <;> simp
  · rw [h4]; split <;> simp
  · intro data
    rw [dispatch_eq_step _ data ⟨h1, h2, h3, h4⟩]
    rfl
  · intro id note
    have hr : run (fresh status)
        (evs ++ [.openNote id, .noteLoaded (run (fresh status) evs).loads.length
          (.response 200 (some note))])
        = step (step (run (fresh status) evs) (.openNote id))
            (.noteLoaded (run (fresh status) evs).loads.length (.response 200 (some note))) := by
      simp [run, List.foldl_append]
    rw [hr]
    generalize run (fresh status) evs = s at h1 h2 h3 h4
    cases hs : s.socket <;>
      simp [step, openEditorForNote, openEditorForNoteLoaded, apiCall, hs, h1]

/-! ## C17: when apiCall rejects -/

/-- C17, as stated, fails: for a body that `JSON.stringify` throws on, such
as an object with a cycle, the promise of `apiCall` rejects, whatever the
request would have answered, and nothing is sent. -/
theorem apiCall_rejects_unserialisable_body :
    apiCallPromise "/notes" "POST" ⟨true, .throws⟩ (.response 200 (some ()))
      = (none, .rejected, false) ∧
    apiCallPromise "/notes" "POST" ⟨true, .throws⟩ (.networkFailure : FetchOutcome Unit)
      = (none, .rejected, false) := by
  decide

/-- C17, amended: for every endpoint and method, every body that is falsy or
that `JSON.stringify` does not throw on, and every outcome of the request,
the promise of `apiCall` resolves; it resolves to the parsed body when the
status is not 401 and the body parses, and to null in every other case, and
`handleLogout` is called exactly when the status is 401.  The request goes to
`API_BASE` followed by the endpoint; a falsy body is not sent with it, a
truthy one is sent as the text `JSON.stringify` makes of it. -/
theorem apiCall_never_rejects {α : Type} (endpoint method : String) (body : BodyArg)
    (o : FetchOutcome α) (hbody : body.truthy = true → body.stringified ≠ .throws) :
    (apiCallPromise endpoint method body o).2.1 ≠ .rejected ∧
    (apiCallPromise endpoint method body o).2.1 = .resolved (apiCall o).1 ∧
    (apiCallPromise endpoint method body o).2.2 = (apiCall o).2 ∧
    (∀ status v, o = .response status (some v) → status ≠ 401 →
      (apiCallPromise endpoint method body o).2.1 = .resolved (some v)) ∧
    ((¬ ∃ status v, o = .response status (some v) ∧ status ≠ 401) →
      (apiCallPromise endpoint method body o).2.1 = .resolved none) ∧
    ((apiCallPromise endpoint method body o).2.2 = true ↔ ∃ b, o = .response 401 b) ∧
    (∃ request, (apiCallPromise endpoint method body o).1 = some request ∧
      request.url = API_BASE ++ endpoint ∧ request.method = method ∧
      (body.truthy = false → request.body = none) ∧
      (∀ json, body.truthy = true → body.stringified = .text json →
        request.body = some json)) := by
  obtain ⟨request, hreq, hurl, hm, hfalsy, htext⟩ :
      ∃ request, apiCallRequest endpoint method body = some request ∧
        request.url = API_BASE ++ endpoint ∧ request.method = method ∧
        (body.truthy = false → request.body = none) ∧
        (∀ json, body.truthy = true → body.stringified = .text json →
          request.body = some json) := by
    cases ht : body.truthy with
    | false =>
      exact ⟨⟨API_BASE ++ endpoint, method, "application/json", "include", none⟩,
        by simp [apiCallRequest, ht], rfl, rfl, fun _ => rfl, by simp⟩
    | true =>
      cases hs : body.stringified with
      | throws => exact absurd hs (hbody ht)
      | undefined =>
        exact ⟨⟨API_BASE ++ endpoint, method, "application/json", "include", none⟩,
          by simp [apiCallRequest, ht, hs], rfl, rfl, by simp, by simp⟩
      | text json =>
        exact ⟨⟨API_BASE ++ endpoint, method, "application/json", "include", some json⟩,
          by simp [apiCallRequest, ht, hs], rfl, rfl, by simp,
          fun j _ hj => by simp only [Stringified.text.injEq] at hj; simp [hj]⟩
  cases o with
  | networkFailure =>
    simp only [apiCallPromise, hreq, apiCallTry, apiCall]
    exact ⟨by simp, by simp, by simp, by simp, by simp, by simp,
      ⟨request, rfl, hurl, hm, hfalsy, htext⟩⟩
  | response status b =>
    by_cases h : status = 401
    · subst h
      simp only [apiCallPromise, hreq, apiCallTry, apiCall]
      refine ⟨by simp, by simp, by simp, ?_, by simp, by simp,
        ⟨request, rfl, hurl, hm, hfalsy, htext⟩⟩
      intro status v ho hs
      simp only [FetchOutcome.response.injEq] at ho
      exact absurd ho.1.symm hs
    · cases b with
      | none =>
        simp only [apiCallPromise, hreq, apiCallTry, apiCall, h, if_false]
        exact ⟨by simp, by simp, by simp, by simp, by simp, by simp [h],
          ⟨request, rfl, hurl, hm, hfalsy, htext⟩⟩
      | some v =>
        simp only [apiCallPromise, hreq, apiCallTry, apiCall, h, if_false]
        refine ⟨by simp, by simp, by simp, ?_, ?_, by simp [h],
          ⟨request, rfl, hurl, hm, hfalsy, htext⟩⟩
        · intro status' v' ho _
          simp only [FetchOutcome.response.injEq, Option.some.injEq] at ho
          simp [ho.2]
        · intro hn
          exact absurd ⟨status, v, rfl, h⟩ hn

/-- An instance of C17, amended: the PUT of the debounced save, with the body
`{content: 'x'}`, answered with status 500 and a body that does not parse. -/
theorem apiCall_never_rejects_witness :
    apiCallPromise "/notes/1" "PUT" ⟨true, .text "\x7b\"content\":\"x\"\x7d"⟩
        (.response 500 none : FetchOutcome Unit)
      = (some ⟨"/api/notes/1", "PUT", "application/json", "include",
          some "\x7b\"content\":\"x\"\x7d"⟩, .resolved none, false) ∧
    (apiCallPromise "/notes/1" "PUT" ⟨true, .text "\x7b\"content\":\"x\"\x7d"⟩
        (.response 500 none : FetchOutcome Unit)).2.1 ≠ .rejected :=
  ⟨by decide,
    (apiCall_never_rejects "/notes/1" "PUT" ⟨true, .text "\x7b\"content\":\"x\"\x7d"⟩
      (.response 500 none) (by decide)).1⟩

/-! ## C20: the status cycle -/

/-- C20: the cycle sends pending to working, working to completed and
completed to pending, so none of the three is sent to itself and three steps
lead back; a status that is neither one of the three nor the name of a
property of `Object.prototype` is sent to pending.  At the failing input
`constructor` the new status is the inherited property, not pending. -/
theorem status_cycle :
    cycleTaskStatus "pending" = .status "working" ∧
    cycleTaskStatus "working" = .status "completed" ∧
    cycleTaskStatus "completed" = .status "pending" ∧
    (∀ s, s ≠ "pending" → s ≠ "working" → s ≠ "completed" → s ∉ objectPrototypeKeys →
      cycleTaskStatus s = .status "pending") ∧
    cycleTaskStatus "constructor" = .inheritedValue "constructor" ∧
    cycleTaskStatus "toString" ≠ .status "pending" := by
  refine ⟨by decide, by decide, by decide, ?_, by decide, by decide⟩
  intro s h1 h2 h3 h4
  have hl : cycle.lookup s = none := by
    have b1 : (s == "pending") = false := beq_eq_false_iff_ne.mpr h1
    have b2 : (s == "working") = false := beq_eq_false_iff_ne.mpr h2
    have b3 : (s == "completed") = false := beq_eq_false_iff_ne.mpr h3
    simp [cycle, List.lookup, b1, b2, b3]
  simp [cycleTaskStatus, getProp, hl, h4]
/-! ## C16: tasks grouped by category -/

/-- C16: the code at the failing input.  A task whose category is
`constructor` makes `renderTasks` throw; nothing is rendered.  The empty list
gives the placeholder alone, and ordinary categories are grouped. -/
theorem renderTasks_throws_on_inherited_key :
    renderTasks [⟨.num 1, "Call the bank", some "constructor", none⟩] = none ∧
    renderTasks [⟨.num 1, "a", some "Work", none⟩, ⟨.num 2, "b", none, none⟩,
        ⟨.num 3, "c", some "constructor", none⟩] = none ∧
    renderTasks [] = some [.placeholder] ∧
    renderTasks [⟨.num 1, "a", some "Work", none⟩, ⟨.num 2, "b", none, some "working"⟩,
        ⟨.num 3, "c", some "Work", none⟩, ⟨.num 4, "d", some "7", none⟩]
      = some [.header "7", .item ⟨.num 4, "d", some "7", none⟩ "pending",
              .header "Work", .item ⟨.num 1, "a", some "Work", none⟩ "pending",
              .item ⟨.num 3, "c", some "Work", none⟩ "pending",
              .header "General", .item ⟨.num 2, "b", none, some "working"⟩ "working"] := by
  decide

/-! ## C18: the recursion of `renderFolderNode` -/

/-- The loop does not return when its first call does not. -/
theorem forEachRender_none (g : Folder → Option Rendered) (x : Folder) (rest : List Folder)
    (hg : g x = none) : forEachRender g (x :: rest) = none := by
  simp [forEachRender, hg]

/-- The loop ends when each of its calls does. -/
theorem forEachRender_some (g : Folder → Option Rendered) (l : List Folder)
    (h : ∀ c ∈ l, ∃ out, g c = some out) : ∃ out, forEachRender g l = some out := by
  induction l with
  | nil => exact ⟨_, rfl⟩
  | cons a as ih =>
    obtain ⟨o1, h1⟩ := h a (by simp)
    obtain ⟨o2, h2⟩ := ih (fun c hc => h c (by simp [hc]))
    cases ht : o1.threw with
    | true => exact ⟨o1, by simp [forEachRender, h1, ht]⟩
    | false =>
      exact ⟨{ items := o1.items ++ o2.items, threw := o2.threw },
        by simp [forEachRender, h1, h2, ht]⟩

/-- A folder that is alone in the list, names itself as parent and is parsed
with its button is never rendered to the end. -/
theorem renderFolderNode_own_parent (f : Folder) (hp : f.parent_id = f.id)
    (hb : hasAddButton f = true) :
    ∀ fuel depth, renderFolderNode fuel [f] f depth = none := by
  intro fuel
  induction fuel with
  | zero => intro depth; rfl
  | succ n ih =>
    intro depth
    have hc : [f].filter (fun c => c.parent_id.strictEq f.id) = [f] := by
      simp [JsVal.strictEq, hp]
    simp only [renderFolderNode, hb, if_true, hc]
    rw [forEachRender_none (fun c => renderFolderNode n [f] c (depth + 1)) f [] (ih (depth + 1))]

/-- The folders of a call stack are in the list. -/
theorem isPath_mem (folders : List Folder) : ∀ p : List Folder, IsPath folders p →
    ∀ x ∈ p, x ∈ folders
  | [], h => by simp [IsPath] at h
  | [r], h => by
    intro x hx
    simp only [List.mem_singleton] at hx
    subst hx
    exact h.1
  | c :: f :: rest, h => by
    intro x hx
    rcases List.mem_cons.mp hx with rfl | hx'
    · exact h.1
    · exact isPath_mem folders (f :: rest) h.2.2.2 x hx'

/-- No folder occurs twice in a call stack. -/
theorem isPath_nodup (folders : List Folder) : ∀ p : List Folder, IsPath folders p → p.Nodup
  | [], h => by simp [IsPath] at h
  | [r], _ => by simp
  | c :: f :: rest, h => List.nodup_cons.mpr ⟨h.2.2.1, isPath_nodup folders (f :: rest) h.2.2.2⟩

/-- Every folder of a call stack is a root or names a folder further out. -/
theorem isPath_parent (folders : List Folder) : ∀ p : List Folder, IsPath folders p →
    ∀ x ∈ p, x.parent_id.truthy = false ∨ ∃ q ∈ p.tail, q.id = x.parent_id
  | [], h => by simp [IsPath] at h
  | [r], h => by
    intro x hx
    simp only [List.mem_singleton] at hx
    subst hx
    exact Or.inl h.2
  | c :: f :: rest, h => by
    intro x hx
    rcases List.mem_cons.mp hx with rfl | hx'
    · exact Or.inr ⟨f, by simp, h.2.1.symm⟩
    · rcases isPath_parent folders (f :: rest) h.2.2.2 x hx' with hr | ⟨q, hq, he⟩
      · exact Or.inl hr
      · exact Or.inr ⟨q, by simp only [List.tail_cons] at hq ⊢; exact List.mem_cons_of_mem _ hq, he⟩

/-- With unique ids and no root that is a child, a child of the innermost
folder extends the call stack. -/
theorem isPath_extend (folders : List Folder)
    (hU : ∀ f ∈ folders, ∀ g ∈ folders, f.id = g.id → f = g)
    (hT : RootsHaveNoParent folders)
    (f : Folder) (rest : List Folder) (hp : IsPath folders (f :: rest))
    (c : Folder) (hc : c ∈ folders) (hcf : c.parent_id = f.id) :
    IsPath folders (c :: f :: rest) := by
  have hfm : f ∈ folders := isPath_mem folders _ hp f (by simp)
  refine ⟨hc, hcf, ?_, hp⟩
  intro hin
  rcases isPath_parent folders _ hp c hin with hr | ⟨q, hq, he⟩
  · rw [hT f hfm c hc hcf] at hr
    exact absurd hr (by simp)
  · simp only [List.tail_cons] at hq
    have hqm : q ∈ folders := isPath_mem folders _ hp q (List.mem_cons_of_mem _ hq)
    have : q = f := hU q hqm f hfm (he.trans hcf)
    subst this
    exact (List.nodup_cons.mp (isPath_nodup folders _ hp)).1 hq

/-- A call stack is no longer than the list of folders. -/
theorem isPath_length (folders : List Folder) (p : List Folder) (hp : IsPath folders p) :
    p.length ≤ folders.length :=
  (List.subperm_of_subset (isPath_nodup folders p hp)
    (fun x hx => isPath_mem folders p hp x hx)).length_le

/-- With unique ids and no root that is a child, a call whose stack is a path
returns when the fuel covers the folders that are not on the stack. -/
theorem renderFolderNode_returns (folders : List Folder)
    (hU : ∀ f ∈ folders, ∀ g ∈ folders, f.id = g.id → f = g)
    (hT : RootsHaveNoParent folders) :
    ∀ (fuel : Nat) (f : Folder) (rest : List Folder) (depth : Nat),
      IsPath folders (f :: rest) → folders.length < fuel + (f :: rest).length →
      ∃ out, renderFolderNode fuel folders f depth = some out := by
  intro fuel
  induction fuel with
  | zero =>
    intro f rest depth hp hl
    have := isPath_length folders _ hp
    omega
  | succ n ih =>
    intro f rest depth hp hl
    have hch : ∀ c ∈ folders.filter (fun c => c.parent_id.strictEq f.id),
        ∃ out, renderFolderNode n folders c (depth + 1) = some out := by
      intro c hc
      simp only [List.mem_filter, JsVal.strictEq, decide_eq_true_eq] at hc
      exact ih c (f :: rest) (depth + 1)
        (isPath_extend folders hU hT f rest hp c hc.1 hc.2)
        (by simp only [List.length_cons] at hl ⊢; omega)
    obtain ⟨r, hi⟩ := forEachRender_some _ _ hch
    cases hb : hasAddButton f with
    | false => exact ⟨{ items := [], threw := true }, by simp [renderFolderNode, hb]⟩
    | true =>
      exact ⟨⟨FolderItem.mk f (12 + depth * 20) :: r.items, r.threw⟩,
        by simp only [renderFolderNode, hb, if_true, hi]⟩

/-- C18, as stated, fails: for a folder whose id and parent id are both null,
for a folder with id 0 that is its own parent, and for two folders with the
same id 1 of which one lies below the other, `renderFolders` does not return,
however deep the call stack may grow. -/
theorem renderFolders_runs_forever :
    (∀ fuel, renderFolders fuel [⟨.null, .null, "a", true⟩] = none) ∧
    (∀ fuel, renderFolders fuel [⟨.num 0, .num 0, "a", true⟩] = none) ∧
    (∀ fuel, renderFolders fuel
      [⟨.num 1, .null, "a", true⟩, ⟨.num 2, .num 1, "b", true⟩,
       ⟨.num 1, .num 2, "c", true⟩] = none) := by
  refine ⟨?_, ?_, ?_⟩
  · intro fuel
    exact forEachRender_none
      (fun f => renderFolderNode fuel [⟨.null, .null, "a", true⟩] f 0) _ []
      (renderFolderNode_own_parent ⟨.null, .null, "a", true⟩ rfl (by decide) fuel 0)
  · intro fuel
    exact forEachRender_none
      (fun f => renderFolderNode fuel [⟨.num 0, .num 0, "a", true⟩] f 0) _ []
      (renderFolderNode_own_parent ⟨.num 0, .num 0, "a", true⟩ rfl (by decide) fuel 0)
  · have hbc : ∀ fuel d,
        renderFolderNode fuel
          [⟨.num 1, .null, "a", true⟩, ⟨.num 2, .num 1, "b", true⟩,
           ⟨.num 1, .num 2, "c", true⟩]
          ⟨.num 2, .num 1, "b", true⟩ d = none ∧
        renderFolderNode fuel
          [⟨.num 1, .null, "a", true⟩, ⟨.num 2, .num 1, "b", true⟩,
           ⟨.num 1, .num 2, "c", true⟩]
          ⟨.num 1, .num 2, "c", true⟩ d = none := by
      intro fuel
      induction fuel with
      | zero => intro d; exact ⟨rfl, rfl⟩
      | succ n ih =>
        intro d
        constructor
        · have hb : hasAddButton ⟨.num 2, .num 1, "b", true⟩ = true := by decide
          simp only [renderFolderNode, hb, if_true]
          rw [show List.filter (fun f : Folder => f.parent_id.strictEq (JsVal.num 2))
              [⟨.num 1, .null, "a", true⟩, ⟨.num 2, .num 1, "b", true⟩,
               ⟨.num 1, .num 2, "c", true⟩] = [⟨.num 1, .num 2, "c", true⟩] from by decide]
          rw [forEachRender_none
            (fun c => renderFolderNode n
              [⟨.num 1, .null, "a", true⟩, ⟨.num 2, .num 1, "b", true⟩,
               ⟨.num 1, .num 2, "c", true⟩] c (d + 1)) _ [] (ih (d + 1)).2]
        · have hb : hasAddButton ⟨.num 1, .num 2, "c", true⟩ = true := by decide
          simp only [renderFolderNode, hb, if_true]
          rw [show List.filter (fun f : Folder => f.parent_id.strictEq (JsVal.num 1))
              [⟨.num 1, .null, "a", true⟩, ⟨.num 2, .num 1, "b", true⟩,
               ⟨.num 1, .num 2, "c", true⟩] = [⟨.num 2, .num 1, "b", true⟩] from by decide]
          rw [forEachRender_none
            (fun c => renderFolderNode n
              [⟨.num 1, .null, "a", true⟩, ⟨.num 2, .num 1, "b", true⟩,
               ⟨.num 1, .num 2, "c", true⟩] c (d + 1)) _ [] (ih (d + 1)).1]
    intro fuel
    have hr : renderFolderNode fuel
        [⟨.num 1, .null, "a", true⟩, ⟨.num 2, .num 1, "b", true⟩,
         ⟨.num 1, .num 2, "c", true⟩]
        ⟨.num 1, .null, "a", true⟩ 0 = none := by
      cases fuel with
      | zero => rfl
      | succ n =>
        have hb : hasAddButton ⟨.num 1, .null, "a", true⟩ = true := by decide
        simp only [renderFolderNode, hb, if_true]
        rw [show List.filter (fun f : Folder => f.parent_id.strictEq (JsVal.num 1))
            [⟨.num 1, .null, "a", true⟩, ⟨.num 2, .num 1, "b", true⟩,
             ⟨.num 1, .num 2, "c", true⟩] = [⟨.num 2, .num 1, "b", true⟩] from by decide]
        rw [forEachRender_none
          (fun c => renderFolderNode n
            [⟨.num 1, .null, "a", true⟩, ⟨.num 2, .num 1, "b", true⟩,
             ⟨.num 1, .num 2, "c", true⟩] c (0 + 1)) _ [] (hbc n 1).1]
    exact forEachRender_none
      (fun f => renderFolderNode fuel
        [⟨.num 1, .null, "a", true⟩, ⟨.num 2, .num 1, "b", true⟩,
         ⟨.num 1, .num 2, "c", true⟩] f 0) _ [] hr

/-- C18, amended: when the ids of the folders are unique and no folder with
a falsy parent id has that value as the id of a folder of the list,
`renderFolders` returns, whatever else the parent ids are, with a call stack
no deeper than the number of folders. -/
theorem renderFolders_returns (folders : List Folder) (fuel : Nat)
    (hU : (folders.map (fun f => f.id)).Nodup)
    (hT : RootsHaveNoParent folders) (hfuel : folders.length ≤ fuel) :
    ∃ out, renderFolders fuel folders = some out := by
  have hU' : ∀ f ∈ folders, ∀ g ∈ folders, f.id = g.id → f = g :=
    fun f hf g hg h => List.inj_on_of_nodup_map hU hf hg h
  apply forEachRender_some
  intro r hr
  simp only [List.mem_filter, Bool.not_eq_true', ] at hr
  exact renderFolderNode_returns folders hU' hT fuel r [] 0 ⟨hr.1, hr.2⟩
    (by simp only [List.length_cons, List.length_nil]; omega)

/-- An instance of C18, amended: a folder that is its own parent and two
folders that are each the parent of the other are never reached; and a folder
whose item is parsed without its button ends the rendering by a throw. -/
theorem renderFolders_returns_witness :
    renderFolders 5
      [⟨.num 1, .null, "a", true⟩, ⟨.num 2, .num 1, "b", true⟩, ⟨.num 3, .num 3, "c", true⟩,
       ⟨.num 4, .num 5, "d", true⟩, ⟨.num 5, .num 4, "e", true⟩]
      = some ⟨[⟨⟨.num 1, .null, "a", true⟩, 12⟩, ⟨⟨.num 2, .num 1, "b", true⟩, 32⟩], false⟩ ∧
    renderFolders 2 [⟨.num 1, .null, "<!--", false⟩, ⟨.num 2, .null, "b", true⟩]
      = some ⟨[], true⟩ ∧
    ∃ out, renderFolders 5
      [⟨.num 1, .null, "a", true⟩, ⟨.num 2, .num 1, "b", true⟩, ⟨.num 3, .num 3, "c", true⟩,
       ⟨.num 4, .num 5, "d", true⟩, ⟨.num 5, .num 4, "e", true⟩] = some out :=
  ⟨by decide, by decide,
    renderFolders_returns _ 5 (by decide) (by unfold RootsHaveNoParent; decide) (by decide)⟩

/-! ## C15: the folder tree in pre-order -/

/-- The loop appends what its calls append, in order, when none of them
throws. -/
theorem forEachRender_eq (g : Folder → Option Rendered)
    (t : Folder → List FolderItem) (l : List Folder)
    (h : ∀ c ∈ l, g c = some { items := t c, threw := false }) :
    forEachRender g l = some { items := l.flatMap t, threw := false } := by
  induction l with
  | nil => rfl
  | cons a as ih =>
    have h1 := h a (by simp)
    have h2 := ih (fun c hc => h c (by simp [hc]))
    simp [forEachRender, h1, h2]

/-- In a forest the ids name their folders. -/
theorem forest_id_inj {folders : List Folder} {dep : Folder → Nat}
    (h : IsForest folders dep) {f g : Folder} (hf : f ∈ folders) (hg : g ∈ folders)
    (he : f.id = g.id) : f = g :=
  List.inj_on_of_nodup_map h.1 hf hg he

/-- In a forest a child is one level below its parent. -/
theorem forest_child_depth {folders : List Folder} {dep : Folder → Nat}
    (h : IsForest folders dep) {f c : Folder} (hf : f ∈ folders)
    (hc : IsChild folders f c) : dep c = dep f + 1 := by
  have ht : c.parent_id.truthy = true := h.2.1 f hf c hc.1 hc.2
  obtain ⟨p, hp, hid, hd⟩ := (h.2.2 c hc.1).2 ht
  have : p = f := forest_id_inj h hp hf (hid.trans hc.2)
  rw [hd, this]

/-- The depth of a folder is at most the bound. -/
theorem depth_le_bound (folders : List Folder) (dep : Folder → Nat) {f : Folder}
    (hf : f ∈ folders) : dep f ≤ depthBound folders dep :=
  List.le_sum_of_mem (List.mem_map_of_mem dep hf)

/-- What lies below a folder of a forest is in the list and not higher. -/
theorem below_mem_depth {folders : List Folder} {dep : Folder → Nat}
    (h : IsForest folders dep) {f g : Folder} (hf : f ∈ folders)
    (hb : Below folders f g) : g ∈ folders ∧ dep f ≤ dep g := by
  induction hb with
  | refl => exact ⟨hf, le_refl _⟩
  | tail _ hbc ih =>
    have := forest_child_depth h ih.1 hbc
    exact ⟨hbc.1, by omega⟩

/-- Above a folder of a forest there is one folder at each depth. -/
theorem below_unique {folders : List Folder} {dep : Folder → Nat}
    (h : IsForest folders dep) {a b g : Folder} (ha : a ∈ folders) (hb : b ∈ folders)
    (hag : Below folders a g) (hbg : Below folders b g) (hd : dep a = dep b) : a = b := by
  induction hag with
  | refl =>
    rcases Relation.ReflTransGen.cases_tail hbg with he | ⟨c, hbc, hca⟩
    · exact he
    · have h1 := below_mem_depth h hb hbc
      have h2 := forest_child_depth h h1.1 hca
      omega
  | @tail p g hap hpg ih =>
    have h1 := below_mem_depth h ha hap
    have h2 := forest_child_depth h h1.1 hpg
    rcases Relation.ReflTransGen.cases_tail hbg with he | ⟨c, hbc, hcg⟩
    · subst he
      omega
    · have h3 := below_mem_depth h hb hbc
      have : c = p := forest_id_inj h h3.1 h1.1 (hcg.2.symm.trans hpg.2)
      subst this
      exact ih hbc

/-- Every folder listed for `f` is `f` or lies below it. -/
theorem subtree_below (folders : List Folder) (dep : Folder → Nat) :
    ∀ (k : Nat) (f g : Folder),
      g ∈ (subtree folders dep k f).map (fun it => it.folder) → Below folders f g := by
  intro k
  induction k with
  | zero =>
    intro f g hg
    simp only [subtree, itemAt, List.map_cons, List.map_nil, List.mem_singleton] at hg
    subst hg
    exact Relation.ReflTransGen.refl
  | succ n ih =>
    intro f g hg
    simp only [subtree, List.map_cons, List.mem_cons, List.map_flatMap, List.mem_flatMap,
      List.mem_filter, decide_eq_true_eq] at hg
    rcases hg with he | ⟨c, ⟨hc, hcf⟩, hgc⟩
    · subst he
      exact Relation.ReflTransGen.refl
    · exact Relation.ReflTransGen.head ⟨hc, hcf⟩ (ih c g hgc)

/-- In a forest every folder at or below `f` is listed for `f`, when the
levels cover the depth bound. -/
theorem subtree_of_below {folders : List Folder} {dep : Folder → Nat}
    (h : IsForest folders dep) :
    ∀ (k : Nat) (f g : Folder), f ∈ folders → depthBound folders dep ≤ dep f + k →
      Below folders f g → g ∈ (subtree folders dep k f).map (fun it => it.folder) := by
  intro k
  induction k with
  | zero =>
    intro f g hf hk hb
    rcases Relation.ReflTransGen.cases_head hb with he | ⟨c, hfc, _⟩
    · subst he
      simp [subtree, itemAt]
    · have h1 := forest_child_depth h hf hfc
      have h2 := depth_le_bound folders dep hfc.1
      omega
  | succ n ih =>
    intro f g hf hk hb
    rcases Relation.ReflTransGen.cases_head hb with he | ⟨c, hfc, hcg⟩
    · subst he
      simp [subtree, itemAt]
    · have h1 := forest_child_depth h hf hfc
      have h2 := ih c g hfc.1 (by omega) hcg
      simp only [subtree, List.map_cons, List.mem_cons, List.map_flatMap, List.mem_flatMap,
        List.mem_filter, decide_eq_true_eq]
      exact Or.inr ⟨c, ⟨hfc.1, hfc.2⟩, h2⟩

/-- In a forest no folder is listed twice for `f`. -/
theorem subtree_nodup {folders : List Folder} {dep : Folder → Nat}
    (h : IsForest folders dep) :
    ∀ (k : Nat) (f : Folder), f ∈ folders →
      ((subtree folders dep k f).map (fun it => it.folder)).Nodup := by
  intro k
  induction k with
  | zero => intro f _; simp [subtree]
  | succ n ih =>
    intro f hf
    simp only [subtree, List.map_cons, List.map_flatMap, List.nodup_cons]
    constructor
    · intro hin
      simp only [List.mem_flatMap, List.mem_filter, decide_eq_true_eq] at hin
      obtain ⟨c, ⟨hc, hcf⟩, hfc⟩ := hin
      have h1 := forest_child_depth h hf ⟨hc, hcf⟩
      have h2 := below_mem_depth h hc (subtree_below folders dep n c f hfc)
      simp only [itemAt] at h2
      omega
    · rw [List.nodup_flatMap]
      constructor
      · intro c hc
        exact ih c (List.mem_filter.mp hc).1
      · have hnd : (folders.filter (fun c => decide (c.parent_id = f.id))).Nodup :=
          (List.Nodup.of_map _ h.1).filter _
        refine List.Pairwise.imp_of_mem ?_ hnd
        intro a b ha hb hab
        simp only [List.mem_filter, decide_eq_true_eq] at ha hb
        intro g hga hgb
        have h1 := forest_child_depth h hf ⟨ha.1, ha.2⟩
        have h2 := forest_child_depth h hf ⟨hb.1, hb.2⟩
        exact hab (below_unique h ha.1 hb.1 (subtree_below folders dep n a g hga)
          (subtree_below folders dep n b g hgb) (by omega))

/-- Every item listed for `f` is the item of its folder at its depth. -/
theorem subtree_itemAt (folders : List Folder) (dep : Folder → Nat) :
    ∀ (k : Nat) (f : Folder), ∀ it ∈ subtree folders dep k f, it = itemAt dep it.folder := by
  intro k
  induction k with
  | zero => intro f it hit; simp only [subtree, List.mem_singleton] at hit; subst hit; rfl
  | succ n ih =>
    intro f it hit
    simp only [subtree, List.mem_cons, List.mem_flatMap] at hit
    rcases hit with he | ⟨c, _, hc⟩
    · subst he; rfl
    · exact ih c it hc

/-- In a forest whose items all keep their button `renderFolderNode`, called
for a folder with its depth, appends the pre-order listing of the folder and
returns, when the fuel covers the levels below it. -/
theorem renderFolderNode_eq_subtree {folders : List Folder} {dep : Folder → Nat}
    (h : IsForest folders dep) (hB : AllHaveButton folders) :
    ∀ (k fuel : Nat) (f : Folder), f ∈ folders → depthBound folders dep ≤ dep f + k →
      k < fuel → renderFolderNode fuel folders f (dep f)
        = some { items := subtree folders dep k f, threw := false } := by
  intro k
  induction k with
  | zero =>
    intro fuel f hf hk hfuel
    obtain ⟨m, rfl⟩ : ∃ m, fuel = m + 1 := ⟨fuel - 1, by omega⟩
    have hno : folders.filter (fun c => c.parent_id.strictEq f.id) = [] := by
      simp only [List.filter_eq_nil_iff, JsVal.strictEq, decide_eq_true_eq]
      intro c hc hcf
      have h1 := forest_child_depth h hf ⟨hc, hcf⟩
      have h2 := depth_le_bound folders dep hc
      omega
    simp [renderFolderNode, hB f hf, hno, forEachRender, subtree, itemAt, Nat.mul_comm]
  | succ n ih =>
    intro fuel f hf hk hfuel
    obtain ⟨m, rfl⟩ : ∃ m, fuel = m + 1 := ⟨fuel - 1, by omega⟩
    have hch : ∀ c ∈ folders.filter (fun c => c.parent_id.strictEq f.id),
        renderFolderNode m folders c (dep f + 1)
          = some { items := subtree folders dep n c, threw := false } := by
      intro c hc
      simp only [List.mem_filter, JsVal.strictEq, decide_eq_true_eq] at hc
      have h1 := forest_child_depth h hf ⟨hc.1, hc.2⟩
      rw [← h1]
      exact ih m c hc.1 (by omega) (by omega)
    simp only [renderFolderNode, hB f hf, if_true]
    rw [forEachRender_eq _ _ _ hch]
    simp [subtree, itemAt, Nat.mul_comm, JsVal.strictEq]

/-- In a forest the listing of a folder is its item followed by the listings
of its children, in list order. -/
theorem subtree_unfold {folders : List Folder} {dep : Folder → Nat}
    (h : IsForest folders dep) (f : Folder) (hf : f ∈ folders) :
    subtree folders dep (depthBound folders dep - dep f) f
      = itemAt dep f ::
        (folders.filter (fun c => decide (c.parent_id = f.id))).flatMap
          (fun c => subtree folders dep (depthBound folders dep - dep c) c) := by
  have hb := depth_le_bound folders dep hf
  cases hk : depthBound folders dep - dep f with
  | zero =>
    have hno : folders.filter (fun c => decide (c.parent_id = f.id)) = [] := by
      simp only [List.filter_eq_nil_iff, decide_eq_true_eq]
      intro c hc hcf
      have h1 := forest_child_depth h hf ⟨hc, hcf⟩
      have h2 := depth_le_bound folders dep hc
      omega
    simp [subtree, hno]
  | succ n =>
    simp only [subtree]
    congr 1
    apply List.flatMap_congr
    intro c hc
    simp only [List.mem_filter, decide_eq_true_eq] at hc
    have h1 := forest_child_depth h hf ⟨hc.1, hc.2⟩
    have : depthBound folders dep - dep c = n := by omega
    rw [this]

/-- In a forest every folder lies at or below a root of the list. -/
theorem forest_has_root {folders : List Folder} {dep : Folder → Nat}
    (h : IsForest folders dep) :
    ∀ (n : Nat) (g : Folder), g ∈ folders → dep g = n →
      ∃ r ∈ folders, r.parent_id.truthy = false ∧ Below folders r g := by
  intro n
  induction n with
  | zero =>
    intro g hg hd
    cases ht : g.parent_id.truthy with
    | false => exact ⟨g, hg, ht, Relation.ReflTransGen.refl⟩
    | true =>
      obtain ⟨p, _, _, hdp⟩ := (h.2.2 g hg).2 ht
      omega
  | succ m ih =>
    intro g hg hd
    cases ht : g.parent_id.truthy with
    | false =>
      have := (h.2.2 g hg).1 ht
      omega
    | true =>
      obtain ⟨p, hp, hid, hdp⟩ := (h.2.2 g hg).2 ht
      obtain ⟨r, hr, hroot, hb⟩ := ih p hp (by omega)
      exact ⟨r, hr, hroot, Relation.ReflTransGen.tail hb ⟨hg, hid.symm⟩⟩

/-- C15, as stated, fails: folder `a` has id 0 and no parent, folder `b` has
id 1 and parent id 0.  The ids are unique, the only parent named is in the
list and there is no cycle, yet `b` is listed twice: below `a`, and again as a
root, because its parent id 0 is falsy.  And a single folder named `<!--`,
whose markup is parsed without the button, gets no item: the rendering
throws before the item is appended. -/
theorem folder_zero_child_listed_twice :
    renderFolders 3 [⟨.num 0, .null, "a", true⟩, ⟨.num 1, .num 0, "b", true⟩]
      = some ⟨[⟨⟨.num 0, .null, "a", true⟩, 12⟩, ⟨⟨.num 1, .num 0, "b", true⟩, 32⟩,
              ⟨⟨.num 1, .num 0, "b", true⟩, 12⟩], false⟩ ∧
    renderFolders 3 [⟨.num 1, .null, "<!--", false⟩] = some ⟨[], true⟩ := by
  decide

/-- C15, amended: for a forest with unique ids in which no folder with a
falsy parent id has that value as the id of a folder of the list, and whose
items are all parsed with their button (as they are when no name holds a `<`
and no id a double quote), with `dep` the distance of each folder from its
root, `renderFolders` returns without throwing (with any fuel from some bound
on) a list `out` with exactly one item per folder, each with left padding
12 + 20 * depth, in pre-order: `out` lists the roots in list order, and the
listing `tree f` of a folder is its item followed by the listings of its
children in list order. -/
theorem renderFolders_preorder (folders : List Folder) (dep : Folder → Nat)
    (hU : (folders.map (fun f => f.id)).Nodup)
    (hT : RootsHaveNoParent folders) (hD : IsDepth folders dep)
    (hB : AllHaveButton folders) :
    ∃ (out : List FolderItem) (tree : Folder → List FolderItem),
      (∃ n, ∀ fuel, n ≤ fuel →
        renderFolders fuel folders = some { items := out, threw := false }) ∧
      (out.map (fun it => it.folder)).Perm folders ∧
      (∀ it ∈ out, it.paddingLeft = 12 + 20 * dep it.folder) ∧
      (∀ f ∈ folders, tree f =
        { folder := f, paddingLeft := 12 + 20 * dep f } ::
          (folders.filter (fun c => decide (c.parent_id = f.id))).flatMap tree) ∧
      out = (folders.filter (fun f => !f.parent_id.truthy)).flatMap tree := by
  have h : IsForest folders dep := ⟨hU, hT, hD⟩
  let tree : Folder → List FolderItem :=
    fun f => subtree folders dep (depthBound folders dep - dep f) f
  have hroot0 : ∀ r ∈ folders.filter (fun f => !f.parent_id.truthy), r ∈ folders ∧ dep r = 0 := by
    intro r hr
    simp only [List.mem_filter, Bool.not_eq_true'] at hr
    exact ⟨hr.1, (hD r hr.1).1 hr.2⟩
  refine ⟨(folders.filter (fun f => !f.parent_id.truthy)).flatMap tree, tree,
    ⟨depthBound folders dep + 1, ?_⟩, ?_, ?_, ?_, rfl⟩
  · intro fuel hfuel
    apply forEachRender_eq
    intro r hr
    obtain ⟨hrm, hr0⟩ := hroot0 r hr
    have := renderFolderNode_eq_subtree h hB (depthBound folders dep - dep r) fuel r hrm
      (by omega) (by omega)
    rw [hr0] at this
    simpa [tree, hr0] using this
  · apply (List.perm_ext_iff_of_nodup ?_ (List.Nodup.of_map _ hU)).mpr
    · intro g
      simp only [List.map_flatMap, List.mem_flatMap]
      constructor
      · rintro ⟨r, hr, hg⟩
        exact (below_mem_depth h (hroot0 r hr).1 (subtree_below folders dep _ r g hg)).1
      · intro hg
        obtain ⟨r, hr, hroot, hb⟩ := forest_has_root h (dep g) g hg rfl
        refine ⟨r, by simp [List.mem_filter, hr, hroot], ?_⟩
        exact subtree_of_below h _ r g hr
          (by have := depth_le_bound folders dep hr; omega) hb
    · rw [List.map_flatMap, List.nodup_flatMap]
      constructor
      · intro r hr
        exact subtree_nodup h _ r (hroot0 r hr).1
      · have hnd : (folders.filter (fun f => !f.parent_id.truthy)).Nodup :=
          (List.Nodup.of_map _ hU).filter _
        refine List.Pairwise.imp_of_mem ?_ hnd
        intro a b ha hb hab g hga hgb
        obtain ⟨ham, ha0⟩ := hroot0 a ha
        obtain ⟨hbm, hb0⟩ := hroot0 b hb
        exact hab (below_unique h ham hbm (subtree_below folders dep _ a g hga)
          (subtree_below folders dep _ b g hgb) (by omega))
  · intro it hit
    simp only [List.mem_flatMap] at hit
    obtain ⟨r, _, hr⟩ := hit
    have := subtree_itemAt folders dep _ r it hr
    rw [this]
    rfl
  · intro f hf
    exact subtree_unfold h f hf

/-- An instance of C15, amended: two roots, the first with a child and a
grandchild that come later in the list. -/
theorem renderFolders_preorder_witness :
    (sampleFolders.map (fun f => f.id)).Nodup ∧
    RootsHaveNoParent sampleFolders ∧ IsDepth sampleFolders sampleDepth ∧
    AllHaveButton sampleFolders ∧
    renderFolders 4 sampleFolders
      = some ⟨[⟨⟨.num 1, .null, "a", true⟩, 12⟩, ⟨⟨.num 3, .num 1, "c", true⟩, 32⟩,
              ⟨⟨.num 4, .num 3, "d", true⟩, 52⟩, ⟨⟨.num 2, .null, "b", true⟩, 12⟩], false⟩ ∧
    ∃ out, (∃ n, ∀ fuel, n ≤ fuel →
        renderFolders fuel sampleFolders = some { items := out, threw := false }) ∧
      (out.map (fun it => it.folder)).Perm sampleFolders :=
  ⟨by decide, by unfold RootsHaveNoParent; decide, by unfold IsDepth; decide,
    by unfold AllHaveButton; decide, by decide,
    let ⟨out, _, h1, h2, _⟩ := renderFolders_preorder sampleFolders sampleDepth
      (by decide) (by unfold RootsHaveNoParent; decide) (by unfold IsDepth; decide)
      (by unfold AllHaveButton; decide)
    ⟨out, h1, h2⟩⟩

/-- A key without own property is not among the keys. -/
theorem lookup_none_iff_not_key {α : Type} (props : List (String × α)) (k : String) :
    props.lookup k = none ↔ k ∉ props.map Prod.fst := by
  simp only [List.lookup_eq_none_iff, List.mem_map, not_exists, not_and, bne_iff_ne, ne_eq]
  constructor
  · intro h p hp he
    exact h p hp he.symm
  · intro h p hp he
    exact h p hp he.symm

/-- The `Object.entries` of an object are its own properties, reordered. -/
theorem objectEntries_perm {α : Type} (props : List (String × α)) :
    (objectEntries props).Perm props := by
  unfold objectEntries
  exact ((List.perm_insertionSort _ _).append_right _).trans (List.filter_append_perm _ _)

/-- A task whose category is not the name of an inherited property is put
into its group, and the groups stay what `GroupInv` says. -/
theorem pushTask_inv (groups : List (String × List Task)) (done : List Task) (t : Task)
    (h : GroupInv groups done) (hk : taskCategory t ∉ objectPrototypeKeys) :
    ∃ next, pushTask groups t = some next ∧ GroupInv next (done ++ [t]) := by
  obtain ⟨h1, h2, h3, h4⟩ := h
  cases hl : groups.lookup (taskCategory t) with
  | none =>
    have hnk : taskCategory t ∉ groups.map Prod.fst := (lookup_none_iff_not_key _ _).mp hl
    refine ⟨groups ++ [(taskCategory t, [t])], by simp [pushTask, getProp, hl, hk], ?_, ?_, ?_, ?_⟩
    · rw [List.map_append, List.nodup_append]
      refine ⟨h1, by simp, ?_⟩
      intro a ha hb
      simp only [List.map_cons, List.map_nil, List.mem_singleton] at hb
      exact hnk (hb ▸ ha)
    · intro g hg
      rcases List.mem_append.mp hg with hg' | hg'
      · have hne : taskCategory t ≠ g.1 := fun he =>
          hnk (he ▸ List.mem_map_of_mem Prod.fst hg')
        simp [List.filter_append, h2 g hg', hne]
      · simp only [List.mem_singleton] at hg'
        subst hg'
        have hnil : done.filter (fun t' => decide (taskCategory t' = taskCategory t)) = [] := by
          simp only [List.filter_eq_nil_iff, decide_eq_true_eq]
          intro t' ht' he
          exact hnk (he ▸ h3 t' ht')
        simp [List.filter_append, hnil]
    · intro t' ht'
      rcases List.mem_append.mp ht' with hd | hd
      · simp only [List.map_append, List.mem_append]
        exact Or.inl (h3 t' hd)
      · simp only [List.mem_singleton] at hd
        subst hd
        simp
    · intro g hg
      rcases List.mem_append.mp hg with hg' | hg'
      · obtain ⟨t', ht', he⟩ := h4 g hg'
        exact ⟨t', List.mem_append_left _ ht', he⟩
      · simp only [List.mem_singleton] at hg'
        subst hg'
        exact ⟨t, by simp, rfl⟩
  | some v =>
    have hkey : taskCategory t ∈ groups.map Prod.fst := by
      by_contra hn
      rw [(lookup_none_iff_not_key _ _).mpr hn] at hl
      exact absurd hl (by simp)
    refine ⟨groups.map (fun g => if g.1 = taskCategory t then (g.1, g.2 ++ [t]) else g),
      by simp [pushTask, getProp, hl], ?_, ?_, ?_, ?_⟩
    · have hfst : (groups.map (fun g => if g.1 = taskCategory t then (g.1, g.2 ++ [t]) else g)).map
          Prod.fst = groups.map Prod.fst := by
        rw [List.map_map]
        apply List.map_congr_left
        intro g _
        simp only [Function.comp]
        split <;> rfl
      rw [hfst]; exact h1
    · intro g' hg'
      obtain ⟨g, hg, rfl⟩ := List.mem_map.mp hg'
      by_cases hc : g.1 = taskCategory t
      · simp [hc, List.filter_append, h2 g hg]
      · have hc' : taskCategory t ≠ g.1 := fun he => hc he.symm
        simp [hc, List.filter_append, h2 g hg, hc']
    · intro t' ht'
      have hfst : (groups.map (fun g => if g.1 = taskCategory t then (g.1, g.2 ++ [t]) else g)).map
          Prod.fst = groups.map Prod.fst := by
        rw [List.map_map]
        apply List.map_congr_left
        intro g _
        simp only [Function.comp]
        split <;> rfl
      rw [hfst]
      rcases List.mem_append.mp ht' with hd | hd
      · exact h3 t' hd
      · simp only [List.mem_singleton] at hd
        subst hd
        exact hkey
    · intro g' hg'
      obtain ⟨g, hg, rfl⟩ := List.mem_map.mp hg'
      obtain ⟨t', ht', he⟩ := h4 g hg
      refine ⟨t', List.mem_append_left _ ht', ?_⟩
      rw [he]
      split <;> rfl

/-- The grouping loop returns and keeps `GroupInv`, when no category is the
name of an inherited property. -/
theorem groupTasks_inv : ∀ (rest : List Task) (groups : List (String × List Task))
    (done : List Task), GroupInv groups done →
    (∀ t ∈ rest, taskCategory t ∉ objectPrototypeKeys) →
    ∃ final, groupTasks rest groups = some final ∧ GroupInv final (done ++ rest)
  | [], groups, done, h, _ => ⟨groups, rfl, by simpa using h⟩
  | t :: rest, groups, done, h, hk => by
    obtain ⟨next, hn, hi⟩ := pushTask_inv groups done t h (hk t (by simp))
    obtain ⟨final, hf, hfi⟩ := groupTasks_inv rest next (done ++ [t]) hi
      (fun t' ht' => hk t' (by simp [ht']))
    exact ⟨final, by simp [groupTasks, hn, hf], by simpa using hfi⟩

/-- When no category is the name of a property inherited from
`Object.prototype`, `renderTasks` of a list that is not empty emits, for the
distinct categories in some order, the header of the category followed by the
tasks of that category in their original order. -/
theorem renderTasks_groups (tasks : List Task) (hne : tasks ≠ [])
    (hk : ∀ t ∈ tasks, taskCategory t ∉ objectPrototypeKeys) :
    ∃ cats : List String, cats.Nodup ∧
      (∀ c, c ∈ cats ↔ ∃ t ∈ tasks, taskCategory t = c) ∧
      renderTasks tasks = some (cats.flatMap (fun c =>
        .header c :: (tasks.filter (fun t => decide (taskCategory t = c))).map
          (fun t => .item t (taskStatus t)))) := by
  obtain ⟨groups, hg, h1, h2, h3, h4⟩ := groupTasks_inv tasks [] []
    ⟨by simp, by simp, by simp, by simp⟩ hk
  simp only [List.nil_append] at h2 h3 h4
  have hp := objectEntries_perm groups
  refine ⟨(objectEntries groups).map Prod.fst, ?_, ?_, ?_⟩
  · exact ((hp.map Prod.fst).nodup_iff).mpr h1
  · intro c
    rw [(hp.map Prod.fst).mem_iff]
    constructor
    · intro hc
      obtain ⟨g, hgm, rfl⟩ := List.mem_map.mp hc
      exact h4 g hgm
    · rintro ⟨t, ht, rfl⟩
      exact h3 t ht
  · have hlen : ¬ tasks.length = 0 := by
      intro h0; exact hne (List.length_eq_zero.mp h0)
    simp only [renderTasks, hlen, if_false, hg, List.flatMap_map]
    congr 1
    apply List.flatMap_congr
    intro g hgm
    rw [h2 g (hp.mem_iff.mp hgm)]

end BeeKeeps
